import Mathlib

/-!
Shallow embedding of the crate analyzer in
`crates/analyzer/src/analyze/crate_.rs` (function `analyze_crate`), together
with proofs of the specified properties of its module-graph resolution and
aggregation algorithm.

File-system paths are modelled as lists of path components (the last
component being the file name); the file system itself is a finite
association list from paths to file contents.  Since the per-file
Declaration Extractor (`Module::parse`) is an external collaborator of the
analyzed core, a file's "content" is modelled as the parse-relevant data the
extractor produces from its text: the docstring, the declared submodule
names, and the directly contained struct / enum / function declarations.
-/

namespace SphinxRust

/-- A file-system path, as a list of components; the last component is the
file or directory name.  `dir ++ [name]` models `dir.join(name)`. -/
abbrev Path := List String

/-- The parse-relevant content of one source file, standing for its text.
`parseOk = false` models text the Declaration Extractor rejects. -/
structure FileContent where
  parseOk : Bool
  docstring : Option String
  declarations : List String
  structDecls : List (String × Option String)
  enumDecls : List (String × Option String)
  fnDecls : List (String × Option String)
  deriving Repr, DecidableEq

/-- The file system: a finite association list from paths to file contents. -/
abbrev FS := List (Path × FileContent)

/-- Association-list lookup of a path in the file system. -/
def FS.lookup : FS → Path → Option FileContent
  | [], _ => none
  | (q, c) :: rest, p => if p = q then some c else FS.lookup rest p

/-- `path.exists()`: the path names a file present in the file system. -/
def FS.fileExists (fs : FS) (p : Path) : Bool := (fs.lookup p).isSome

/-- The paths of all files in the file system. -/
def FS.keys (fs : FS) : List Path := fs.map Prod.fst

/-- `Crate` record of the data model: package identity. -/
structure Crate where
  name : String
  version : String
  deriving Repr, DecidableEq

/-- `Module` record of the data model. -/
structure Module where
  file : Option Path
  path : Path
  docstring : Option String
  declarations : List String
  deriving Repr, DecidableEq

/-- `Struct` record of the data model. -/
structure Struct where
  path : Path
  docstring : Option String
  deriving Repr, DecidableEq

/-- `Enum` record of the data model. -/
structure Enum where
  path : Path
  docstring : Option String
  deriving Repr, DecidableEq

/-- `Function` record of the data model. -/
structure Function where
  path : Path
  docstring : Option String
  deriving Repr, DecidableEq

/-- `AnalysisResult`: the aggregate record returned to the caller. -/
structure AnalysisResult where
  crate_ : Crate
  modules : List Module
  structs : List Struct
  enums : List Enum
  functions : List Function
  deriving Repr, DecidableEq

/-- `AnalysisResult::new`. -/
def AnalysisResult.new (crate_ : Crate) : AnalysisResult :=
  { crate_ := crate_, modules := [], structs := [], enums := [], functions := [] }

/-- Errors that abort an analysis after crate metadata has been resolved:
a module file that cannot be read, or one the extractor cannot parse. -/
inductive AnalyzeError where
  | ioError (p : Path)
  | parseError (p : Path)
  deriving Repr, DecidableEq

/-- Modelled from the spec: the Declaration Extractor `Module::parse` is an
external collaborator whose implementation is not part of the analyzed core;
per its contract (§4.3) it is a pure function of the optional file path, the
full ancestor-path `pfx` ending in this module's own name, and the file's
text, returning one `Module` descriptor plus ordered `Struct` / `Enum` /
`Function` lists for items declared directly in the file, each item carrying
the full path `pfx ++ [item_name]`; it fails when the text cannot be
interpreted as valid source. -/
def Module.parse (file : Option Path) (pfx : Path) (content : FileContent) :
    Option (Module × List Struct × List Enum × List Function) :=
  if content.parseOk then
    some ({ file := file, path := pfx, docstring := content.docstring,
            declarations := content.declarations },
          content.structDecls.map (fun d => { path := pfx ++ [d.1], docstring := d.2 }),
          content.enumDecls.map (fun d => { path := pfx ++ [d.1], docstring := d.2 }),
          content.fnDecls.map (fun d => { path := pfx ++ [d.1], docstring := d.2 }))
  else none

/-- A pending work item of the traversal: `(parent_dir, module_name, parent)`
— the directory to resolve against, the declared submodule name, and the
path of the declaring module. -/
abbrev WorkItem := Path × String × Path

/-- The Module Resolver, inlined in `analyze_crate` (lines 95–109): try the
sibling file `parent_dir/<name>.rs` first, then the directory-style
`parent_dir/<name>/mod.rs`; returns the file to read and the directory the
resolved module's own submodules are resolved against, or `none`. -/
def resolveModule (fs : FS) (parent_dir : Path) (module_name : String) :
    Option (Path × Path) :=
  if fs.fileExists (parent_dir ++ [module_name ++ ".rs"]) then
    some (parent_dir ++ [module_name ++ ".rs"], parent_dir ++ [module_name])
  else if fs.fileExists (parent_dir ++ [module_name, "mod.rs"]) then
    some (parent_dir ++ [module_name, "mod.rs"], parent_dir)
  else
    none

/-- Number of files of the file system not yet visited; measure for the
termination of the traversal loop. -/
def unvisited (fs : FS) (v : List Path) : Nat :=
  fs.keys.countP (fun p => decide (p ∉ v))

theorem lookup_isSome_mem_keys : ∀ {fs : FS} {p : Path},
    (FS.lookup fs p).isSome → p ∈ FS.keys fs := by
  intro fs
  induction fs with
  | nil => intro p h; rw [FS.lookup] at h; simp at h
  | cons hd tl ih =>
    intro p h
    rw [FS.lookup] at h
    by_cases hpq : p = hd.1
    · subst hpq
      rw [FS.keys, List.map_cons]
      exact List.mem_cons_self _ _
    · rw [if_neg hpq] at h
      rw [FS.keys, List.map_cons]
      exact List.mem_cons_of_mem _ (ih h)

theorem countP_visited_lt {v : List Path} {p : Path} (hnv : p ∉ v) :
    ∀ {l : List Path}, p ∈ l →
      l.countP (fun x => decide (x ∉ v ++ [p])) < l.countP (fun x => decide (x ∉ v)) := by
  intro l hmem
  induction l with
  | nil => simp at hmem
  | cons hd tl ih =>
    rw [List.countP_cons, List.countP_cons]
    have hmono : ∀ x ∈ tl, (fun x => decide (x ∉ v ++ [p])) x = true →
        (fun x => decide (x ∉ v)) x = true := by
      intro x _ hx
      simp only [decide_eq_true_eq] at hx ⊢
      exact fun hxv => hx (List.mem_append_left _ hxv)
    rcases List.mem_cons.mp hmem with heq | htl
    · subst heq
      have hle := List.countP_mono_left hmono
      have hnew : decide (p ∉ v ++ [p]) = false := by
        simp
      have hold : decide (p ∉ v) = true := by
        simp [hnv]
      rw [hnew, hold]
      simpa using Nat.lt_succ_of_le hle
    · have hlt := ih htl
      have hle : (if decide (hd ∉ v ++ [p]) = true then 1 else 0) ≤
          (if decide (hd ∉ v) = true then 1 else 0) := by
        by_cases hcase : decide (hd ∉ v ++ [p]) = true
        · have : decide (hd ∉ v) = true := by
            simp only [decide_eq_true_eq] at hcase ⊢
            exact fun hxv => hcase (List.mem_append_left _ hxv)
          rw [if_pos hcase, if_pos this]
        · rw [if_neg hcase]
          exact Nat.zero_le _
      exact Nat.add_lt_add_of_lt_of_le hlt hle

theorem unvisited_lt {fs : FS} {v : List Path} {p : Path}
    (hmem : p ∈ fs.keys) (hnv : p ∉ v) :
    unvisited fs (v ++ [p]) < unvisited fs v :=
  countP_visited_lt hnv hmem

/-- The Graph Traversal Engine: the `while let Some(...) = modules_to_read.pop()`
loop of `analyze_crate` (lines 93–138).  `wl` is `modules_to_read` (popped
from the end, extended at the end), `v` is `read_modules`, `r` the
accumulated result. -/
def traverse (fs : FS) (wl : List WorkItem) (v : List Path) (r : AnalysisResult) :
    Except AnalyzeError AnalysisResult :=
  match hwl : wl.getLast? with
  | none => .ok r
  | some (parent_dir, module_name, parent) =>
    match hres : resolveModule fs parent_dir module_name with
    | none =>
      -- TODO in the source: warn about missing module?  (silent skip)
      traverse fs wl.dropLast v r
    | some (module_path, submodule_dir) =>
      if hv : module_path ∈ v then
        traverse fs wl.dropLast v r
      else
        match fs.lookup module_path with
        | none => .error (.ioError module_path)
        | some content =>
          let path : Path := parent ++ [module_name]
          match Module.parse (some module_path) path content with
          | none => .error (.parseError module_path)
          | some (module, structs, enums, functions) =>
            traverse fs
              (wl.dropLast ++ module.declarations.map (fun s => (submodule_dir, s, path)))
              (v ++ [module_path])
              { r with
                  modules := r.modules ++ [module],
                  structs := r.structs ++ structs,
                  enums := r.enums ++ enums,
                  functions := r.functions ++ functions }
termination_by (unvisited fs v, wl.length)
decreasing_by
  · apply Prod.Lex.right
    rw [List.length_dropLast]
    exact Nat.sub_lt (List.length_pos.mpr (by
      intro hnil; rw [hnil] at hwl; simp at hwl)) Nat.one_pos
  · apply Prod.Lex.right
    rw [List.length_dropLast]
    exact Nat.sub_lt (List.length_pos.mpr (by
      intro hnil; rw [hnil] at hwl; simp at hwl)) Nat.one_pos
  · apply Prod.Lex.left
    apply unvisited_lt _ hv
    have hex : fs.fileExists module_path := by
      rw [resolveModule] at hres
      by_cases h1 : fs.fileExists (parent_dir ++ [module_name ++ ".rs"])
      · simp [h1] at hres
        rw [← hres.1]; exact h1
      · by_cases h2 : fs.fileExists (parent_dir ++ [module_name, "mod.rs"])
        · simp [h1, h2] at hres
          rw [← hres.1]; exact h2
        · simp [h1, h2] at hres
    exact lookup_isSome_mem_keys hex

/-- Fuel-indexed copy of the traversal loop, additionally returning the
final visited-file list; `none` means the fuel ran out.  It is the vehicle
for inductive proofs about `traverse` and for evaluating concrete runs. -/
def traverseFuel (fs : FS) : Nat → List WorkItem → List Path → AnalysisResult →
    Option (Except AnalyzeError (List Path × AnalysisResult))
  | 0, _, _, _ => none
  | fuel + 1, wl, v, r =>
    match wl.getLast? with
    | none => some (.ok (v, r))
    | some (parent_dir, module_name, parent) =>
      match resolveModule fs parent_dir module_name with
      | none => traverseFuel fs fuel wl.dropLast v r
      | some (module_path, submodule_dir) =>
        if module_path ∈ v then
          traverseFuel fs fuel wl.dropLast v r
        else
          match fs.lookup module_path with
          | none => some (.error (.ioError module_path))
          | some content =>
            let path : Path := parent ++ [module_name]
            match Module.parse (some module_path) path content with
            | none => some (.error (.parseError module_path))
            | some (module, structs, enums, functions) =>
              traverseFuel fs fuel
                (wl.dropLast ++ module.declarations.map (fun s => (submodule_dir, s, path)))
                (v ++ [module_path])
                { r with
                    modules := r.modules ++ [module],
                    structs := r.structs ++ structs,
                    enums := r.enums ++ enums,
                    functions := r.functions ++ functions }

/-- A fuel run that finishes agrees with the traversal loop (soundness of
the fuel-indexed copy). -/
theorem traverseFuel_agree {fs : FS} : ∀ {n : Nat} {wl : List WorkItem}
    {v : List Path} {r : AnalysisResult} {out},
    traverseFuel fs n wl v r = some out →
    traverse fs wl v r = out.map Prod.snd := by
  intro n
  induction n with
  | zero => intro wl v r out h; rw [traverseFuel] at h; exact absurd h (by simp)
  | succ n ih =>
    intro wl v r out h
    rw [traverseFuel] at h
    rw [traverse]
    rcases hq : wl.getLast? with _ | ⟨parent_dir, module_name, parent⟩
    · rw [hq] at h
      simp only at h
      cases h
      rfl
    · rw [hq] at h
      simp only at h ⊢
      rcases hres : resolveModule fs parent_dir module_name with _ | ⟨module_path, submodule_dir⟩
      · rw [hres] at h
        simp only at h ⊢
        exact ih h
      · rw [hres] at h
        simp only at h ⊢
        by_cases hv : module_path ∈ v

        · rw [if_pos hv] at h
          rw [dif_pos hv]
          exact ih h
        · rw [if_neg hv] at h
          rw [dif_neg hv]
          rcases hlk : fs.lookup module_path with _ | content
          · rw [hlk] at h
            simp only at h ⊢
            cases h
            rfl
          · rw [hlk] at h
            simp only at h ⊢
            rcases hp : Module.parse (some module_path) (parent ++ [module_name]) content with
              _ | ⟨module, structs, enums, functions⟩
            · rw [hp] at h
              simp only at h ⊢
              cases h
              rfl
            · rw [hp] at h
              simp only at h ⊢
              exact ih h

/-- For every finite file system and every state, some finite fuel lets the
fuel-indexed copy of the traversal loop finish. -/
theorem traverseFuel_complete (fs : FS) : ∀ (wl : List WorkItem) (v : List Path)
    (r : AnalysisResult), ∃ n out, traverseFuel fs n wl v r = some out := by
  intro wl v r
  induction wl, v, r using traverse.induct fs with
  | case1 wl v r hwl =>
    exact ⟨1, .ok (v, r), by rw [traverseFuel, hwl]⟩
  | case2 wl v r parent_dir module_name parent hwl hres ih =>
    obtain ⟨n, out, hfuel⟩ := ih
    refine ⟨n + 1, out, ?_⟩
    rw [traverseFuel, hwl]
    simp only [hres]
    exact hfuel
  | case3 wl v r parent_dir module_name parent hwl module_path submodule_dir hres hv ih =>
    obtain ⟨n, out, hfuel⟩ := ih
    refine ⟨n + 1, out, ?_⟩
    rw [traverseFuel, hwl]
    simp only [hres, if_pos hv]
    exact hfuel
  | case4 wl v r parent_dir module_name parent hwl module_path submodule_dir hres hv hlk =>
    refine ⟨1, .error (.ioError module_path), ?_⟩
    rw [traverseFuel, hwl]
    simp only [hres, if_neg hv, hlk]
  | case5 wl v r parent_dir module_name parent hwl module_path submodule_dir hres hv content hlk pathl hp =>
    refine ⟨1, .error (.parseError module_path), ?_⟩
    rw [traverseFuel, hwl]
    simp only [hres, if_neg hv, hlk, hp]
  | case6 wl v r parent_dir module_name parent hwl module_path submodule_dir hres hv content hlk pathl module structs enums functions hp ih =>
    obtain ⟨n, out, hfuel⟩ := ih
    refine ⟨n + 1, out, ?_⟩
    rw [traverseFuel, hwl]
    simp only [hres, if_neg hv, hlk, hp]
    exact hfuel

/-- Combined form: every run of the traversal loop is reproduced by the
fuel-indexed copy with enough fuel. -/
theorem traverse_eq_fuel (fs : FS) (wl : List WorkItem) (v : List Path)
    (r : AnalysisResult) : ∃ n out, traverseFuel fs n wl v r = some out ∧
    traverse fs wl v r = out.map Prod.snd := by
  obtain ⟨n, out, hfuel⟩ := traverseFuel_complete fs wl v r
  exact ⟨n, out, hfuel, traverseFuel_agree hfuel⟩

/-- A successful run of the traversal loop comes from a successful fuel run
with a matching visited-file list. -/
theorem traverse_ok_fuel {fs : FS} {wl : List WorkItem} {v : List Path}
    {r res : AnalysisResult} (h : traverse fs wl v r = .ok res) :
    ∃ n v', traverseFuel fs n wl v r = some (.ok (v', res)) := by
  obtain ⟨n, out, hfuel, hagree⟩ := traverse_eq_fuel fs wl v r
  rcases out with e | ⟨v', res'⟩
  · rw [h] at hagree
    exact absurd hagree (by simp [Except.map])
  · rw [h] at hagree
    refine ⟨n, v', ?_⟩
    have : res = res' := by
      simpa [Except.map] using hagree
    rw [this]
    exact hfuel

/-- Crate metadata as produced by the Crate Root Resolver stage of
`analyze_crate` (lines 9–55): package name, version, and the entry source
path of the selected target, obtained from the manifest via the external
Metadata Provider. -/
structure CrateMeta where
  name : String
  version : String
  srcPath : Path
  deriving Repr, DecidableEq

/-- `analyze_crate` from the point where crate metadata is available
(lines 57–141): build the empty result; if the entry file does not exist
return it as-is; otherwise read and parse the entry module, seed the
worklist with its declared submodules against the entry file's directory,
and run the traversal loop. -/
def analyze_crate (meta : CrateMeta) (fs : FS) : Except AnalyzeError AnalysisResult :=
  let result := AnalysisResult.new { name := meta.name, version := meta.version }
  if ¬ fs.fileExists meta.srcPath then
    .ok result
  else
    match fs.lookup meta.srcPath with
    | none => .error (.ioError meta.srcPath)
    | some content =>
      match Module.parse (some meta.srcPath) [meta.name] content with
      | none => .error (.parseError meta.srcPath)
      | some (module, structs, enums, functions) =>
        let modules_to_read : List WorkItem := module.declarations.map
          (fun s => (meta.srcPath.dropLast, s, [meta.name]))
        traverse fs modules_to_read []
          { result with
              modules := [module],
              structs := structs,
              enums := enums,
              functions := functions }

/-- One step of the loop on an unresolvable submodule: the tuple is
discarded, no error, no record, and the traversal continues on the rest. -/
theorem traverse_skip_unresolved {fs : FS} {dir : Path} {name : String} {p : Path}
    (hnone : resolveModule fs dir name = none) (wl : List WorkItem) (v : List Path)
    (r : AnalysisResult) :
    traverse fs (wl ++ [(dir, name, p)]) v r = traverse fs wl v r := by
  obtain ⟨n, out, hfuel, hagree⟩ := traverse_eq_fuel fs wl v r
  have hstep : traverseFuel fs (n + 1) (wl ++ [(dir, name, p)]) v r = some out := by
    rw [traverseFuel]
    simp only [List.getLast?_concat, hnone, List.dropLast_concat]
    exact hfuel
  rw [traverseFuel_agree hstep, hagree]

/-- One step of the loop on an already-visited resolved file: the tuple is
discarded and the traversal continues on the rest. -/
theorem traverse_skip_visited {fs : FS} {dir : Path} {name : String} {p : Path}
    {mp sd : Path} (hres : resolveModule fs dir name = some (mp, sd))
    {v : List Path} (hv : mp ∈ v) (wl : List WorkItem) (r : AnalysisResult) :
    traverse fs (wl ++ [(dir, name, p)]) v r = traverse fs wl v r := by
  obtain ⟨n, out, hfuel, hagree⟩ := traverse_eq_fuel fs wl v r
  have hstep : traverseFuel fs (n + 1) (wl ++ [(dir, name, p)]) v r = some out := by
    rw [traverseFuel]
    simp only [List.getLast?_concat, hres, List.dropLast_concat, if_pos hv]
    exact hfuel
  rw [traverseFuel_agree hstep, hagree]

/-- Case analysis of a successful `analyze_crate` run: either the entry file
was missing and the result is the bare crate record, or the entry file was
read and parsed and the traversal loop was run on the seeded state. -/
theorem analyze_crate_cases {meta : CrateMeta} {fs : FS} {res : AnalysisResult}
    (h : analyze_crate meta fs = .ok res) :
    (fs.fileExists meta.srcPath = false ∧
      res = AnalysisResult.new { name := meta.name, version := meta.version }) ∨
    (∃ content module structs enums functions,
      fs.lookup meta.srcPath = some content ∧
      Module.parse (some meta.srcPath) [meta.name] content =
        some (module, structs, enums, functions) ∧
      traverse fs (module.declarations.map (fun s => (meta.srcPath.dropLast, s, [meta.name])))
        []
        { crate_ := { name := meta.name, version := meta.version },
          modules := [module], structs := structs, enums := enums,
          functions := functions } = .ok res) := by
  rw [analyze_crate] at h
  by_cases hex : fs.fileExists meta.srcPath
  · right
    rw [if_neg (by simp [hex])] at h
    rcases hlk : fs.lookup meta.srcPath with _ | content
    · rw [hlk] at h
      exact absurd h (by simp)
    · rw [hlk] at h
      simp only at h
      rcases hp : Module.parse (some meta.srcPath) [meta.name] content with
        _ | ⟨module, structs, enums, functions⟩
      · rw [hp] at h
        exact absurd h (by simp)
      · rw [hp] at h
        simp only at h
        exact ⟨content, module, structs, enums, functions, rfl, hp, h⟩
  · left
    rw [if_pos (by simp [hex])] at h
    simp only [Except.ok.injEq] at h
    exact ⟨by simp [hex], h.symm⟩

/-- File content of a module file with the given docstring, declared
submodule names, and struct / enum declarations (no functions). -/
def mkContent (doc : Option String) (decls : List String)
    (sts ens : List (String × Option String)) : FileContent :=
  { parseOk := true, docstring := doc, declarations := decls,
    structDecls := sts, enumDecls := ens, fnDecls := [] }

/-- The dummy crate of `test_analyze_crate`: entry `src/lib.rs` declaring
`my_module`; `src/my_module.rs` declaring `my_submodule` and containing
`DummyStruct1` / `DummyEnum1`; `src/my_module/my_submodule.rs` containing
`DummyStruct2` / `DummyEnum2`. -/
def testCrateFS : FS :=
  [ (["src", "lib.rs"],
      mkContent (some "The crate docstring") ["my_module"] [] []),
    (["src", "my_module.rs"],
      mkContent (some "The module docstring") ["my_submodule"]
        [("DummyStruct1", some "The struct1 docstring")]
        [("DummyEnum1", some "The enum1 docstring")]),
    (["src", "my_module", "my_submodule.rs"],
      mkContent (some "The sub-module docstring") []
        [("DummyStruct2", some "The struct2 docstring")]
        [("DummyEnum2", some "The enum2 docstring")]) ]

/-- Metadata of the dummy crate: `my_crate` version `0.1.0`, library entry
`src/lib.rs`. -/
def testCrateMeta : CrateMeta :=
  { name := "my_crate", version := "0.1.0", srcPath := ["src", "lib.rs"] }

/-- The analysis result the dummy crate is expected to produce. -/
def testCrateExpected : AnalysisResult :=
  { crate_ := { name := "my_crate", version := "0.1.0" },
    modules :=
      [ { file := some ["src", "lib.rs"], path := ["my_crate"],
          docstring := some "The crate docstring", declarations := ["my_module"] },
        { file := some ["src", "my_module.rs"], path := ["my_crate", "my_module"],
          docstring := some "The module docstring", declarations := ["my_submodule"] },
        { file := some ["src", "my_module", "my_submodule.rs"],
          path := ["my_crate", "my_module", "my_submodule"],
          docstring := some "The sub-module docstring", declarations := [] } ],
    structs :=
      [ { path := ["my_crate", "my_module", "DummyStruct1"],
          docstring := some "The struct1 docstring" },
        { path := ["my_crate", "my_module", "my_submodule", "DummyStruct2"],
          docstring := some "The struct2 docstring" } ],
    enums :=
      [ { path := ["my_crate", "my_module", "DummyEnum1"],
          docstring := some "The enum1 docstring" },
        { path := ["my_crate", "my_module", "my_submodule", "DummyEnum2"],
          docstring := some "The enum2 docstring" } ],
    functions := [] }

theorem analyze_testCrate :
    analyze_crate testCrateMeta testCrateFS = .ok testCrateExpected := by
  have h0 : analyze_crate testCrateMeta testCrateFS =
      traverse testCrateFS [(["src"], "my_module", ["my_crate"])] []
        { crate_ := { name := "my_crate", version := "0.1.0" },
          modules := [{ file := some ["src", "lib.rs"], path := ["my_crate"],
                        docstring := some "The crate docstring",
                        declarations := ["my_module"] }],
          structs := [], enums := [], functions := [] } := rfl
  have hfuel : traverseFuel testCrateFS 10 [(["src"], "my_module", ["my_crate"])] []
      { crate_ := { name := "my_crate", version := "0.1.0" },
        modules := [{ file := some ["src", "lib.rs"], path := ["my_crate"],
                      docstring := some "The crate docstring",
                      declarations := ["my_module"] }],
        structs := [], enums := [], functions := [] } =
      some (.ok ([["src", "my_module.rs"], ["src", "my_module", "my_submodule.rs"]],
        testCrateExpected)) := by rfl
  rw [h0, traverseFuel_agree hfuel]
  rfl

/-- A crate with a directory-style module: `src/lib.rs` declaring `a`,
`src/a/mod.rs` declaring `b`, and `src/a/b.rs` present on disk — the legal
on-disk location of `a`'s submodule `b`. -/
def modrsCrateFS : FS :=
  [ (["src", "lib.rs"], mkContent none ["a"] [] []),
    (["src", "a", "mod.rs"], mkContent none ["b"] [] []),
    (["src", "a", "b.rs"], mkContent none [] [] []) ]

/-- Metadata of the directory-style crate. -/
def modrsCrateMeta : CrateMeta :=
  { name := "my_crate", version := "0.1.0", srcPath := ["src", "lib.rs"] }

/-- C1: the claim says that for a module resolved via
`base_directory/<name>/mod.rs`, the directory its own declared submodules
are resolved against is `base_directory/<name>/`.  The code instead returns
`base_directory` itself: on a crate where `src/a/mod.rs` declares `b` and
`src/a/b.rs` exists, `b` is looked up in `src/` and silently lost, so the
analysis returns only 2 modules instead of 3. -/
theorem c1_modrs_submodule_dir_bug :
    resolveModule modrsCrateFS ["src"] "a" = some (["src", "a", "mod.rs"], ["src"]) ∧
    (["src"] : Path) ≠ ["src", "a"] ∧
    ∃ res, analyze_crate modrsCrateMeta modrsCrateFS = .ok res ∧
      res.modules.map Module.path = [["my_crate"], ["my_crate", "a"]] := by
  refine ⟨rfl, by simp, ?_⟩
  have h0 : analyze_crate modrsCrateMeta modrsCrateFS =
      traverse modrsCrateFS [(["src"], "a", ["my_crate"])] []
        { crate_ := { name := "my_crate", version := "0.1.0" },
          modules := [{ file := some ["src", "lib.rs"], path := ["my_crate"],
                        docstring := none, declarations := ["a"] }],
          structs := [], enums := [], functions := [] } := rfl
  have hfuel : traverseFuel modrsCrateFS 10 [(["src"], "a", ["my_crate"])] []
      { crate_ := { name := "my_crate", version := "0.1.0" },
        modules := [{ file := some ["src", "lib.rs"], path := ["my_crate"],
                      docstring := none, declarations := ["a"] }],
        structs := [], enums := [], functions := [] } =
      some (.ok ([["src", "a", "mod.rs"]],
        { crate_ := { name := "my_crate", version := "0.1.0" },
          modules := [{ file := some ["src", "lib.rs"], path := ["my_crate"],
                        docstring := none, declarations := ["a"] },
                      { file := some ["src", "a", "mod.rs"], path := ["my_crate", "a"],
                        docstring := none, declarations := ["b"] }],
          structs := [], enums := [], functions := [] })) := by rfl
  refine ⟨{ crate_ := { name := "my_crate", version := "0.1.0" },
            modules := [{ file := some ["src", "lib.rs"], path := ["my_crate"],
                          docstring := none, declarations := ["a"] },
                        { file := some ["src", "a", "mod.rs"], path := ["my_crate", "a"],
                          docstring := none, declarations := ["b"] }],
            structs := [], enums := [], functions := [] }, ?_, ?_⟩
  · rw [h0, traverseFuel_agree hfuel]
    rfl
  · rfl

/-- C3: for the end-to-end scenario of package `my_crate` (entry declaring
`my_module`; `my_module` declaring `my_submodule` and containing
`DummyStruct1` / `DummyEnum1`; `my_submodule` containing `DummyStruct2` /
`DummyEnum2`), analysis succeeds and returns exactly 3 modules with the
expected paths, 2 structs ending in `DummyStruct1` and `DummyStruct2`,
2 enums ending in `DummyEnum1` and `DummyEnum2`, 0 functions, and package
`{name: my_crate, version: 0.1.0}`. -/
theorem c3_end_to_end_scenario :
    ∃ res, analyze_crate testCrateMeta testCrateFS = .ok res ∧
      res.modules.map Module.path =
        [["my_crate"], ["my_crate", "my_module"],
         ["my_crate", "my_module", "my_submodule"]] ∧
      res.structs.length = 2 ∧
      res.structs.map (fun s => s.path.getLastD "") = ["DummyStruct1", "DummyStruct2"] ∧
      res.enums.length = 2 ∧
      res.enums.map (fun e => e.path.getLastD "") = ["DummyEnum1", "DummyEnum2"] ∧
      res.functions = [] ∧
      res.crate_ = { name := "my_crate", version := "0.1.0" } := by
  exact ⟨testCrateExpected, analyze_testCrate, rfl, rfl, rfl, rfl, rfl, rfl, rfl⟩

/-- C6: resolution tries the sibling file `base_directory/<name>.rs` first
and `base_directory/<name>/mod.rs` second, first match winning; if neither
exists the submodule is skipped silently — no error, no `Module` record,
and traversal of the remaining worklist continues. -/
theorem c6_resolution_order_and_silent_skip (fs : FS) (dir : Path) (name : String)
    (p : Path) :
    (fs.fileExists (dir ++ [name ++ ".rs"]) = true →
      (resolveModule fs dir name).map Prod.fst = some (dir ++ [name ++ ".rs"])) ∧
    (fs.fileExists (dir ++ [name ++ ".rs"]) = false →
      fs.fileExists (dir ++ [name, "mod.rs"]) = true →
      (resolveModule fs dir name).map Prod.fst = some (dir ++ [name, "mod.rs"])) ∧
    (fs.fileExists (dir ++ [name ++ ".rs"]) = false →
      fs.fileExists (dir ++ [name, "mod.rs"]) = false →
      resolveModule fs dir name = none ∧
      ∀ (wl : List WorkItem) (v : List Path) (r : AnalysisResult),
        traverse fs (wl ++ [(dir, name, p)]) v r = traverse fs wl v r) := by
  refine ⟨?_, ?_, ?_⟩
  · intro h1
    rw [resolveModule, if_pos h1]
    rfl
  · intro h1 h2
    rw [resolveModule, if_neg (by simp [h1]), if_pos h2]
    rfl
  · intro h1 h2
    have hnone : resolveModule fs dir name = none := by
      rw [resolveModule, if_neg (by simp [h1]), if_neg (by simp [h2])]
    exact ⟨hnone, fun wl v r => traverse_skip_unresolved hnone wl v r⟩

theorem c6_witness :
    (resolveModule testCrateFS ["src"] "my_module").map Prod.fst =
      some ["src", "my_module.rs"] ∧
    (resolveModule modrsCrateFS ["src"] "a").map Prod.fst =
      some ["src", "a", "mod.rs"] ∧
    resolveModule testCrateFS ["src"] "missing" = none ∧
    traverse testCrateFS ([] ++ [(["src"], "missing", ["my_crate"])]) []
      (AnalysisResult.new { name := "my_crate", version := "0.1.0" }) =
    traverse testCrateFS [] [] (AnalysisResult.new { name := "my_crate", version := "0.1.0" }) := by
  have h1 := (c6_resolution_order_and_silent_skip testCrateFS ["src"] "my_module"
    ["my_crate"]).1 rfl
  have h2 := (c6_resolution_order_and_silent_skip modrsCrateFS ["src"] "a"
    ["my_crate"]).2.1 rfl rfl
  have h3 := (c6_resolution_order_and_silent_skip testCrateFS ["src"] "missing"
    ["my_crate"]).2.2 rfl rfl
  exact ⟨h1, h2, h3.1, h3.2 [] [] _⟩

/-- C7: if crate metadata resolves but the entry source file does not exist
on disk, `analyze_crate` returns success with name and version populated and
all module / item lists empty. -/
theorem c7_missing_entry_file_success (meta : CrateMeta) (fs : FS)
    (h : fs.fileExists meta.srcPath = false) :
    analyze_crate meta fs =
      .ok { crate_ := { name := meta.name, version := meta.version },
            modules := [], structs := [], enums := [], functions := [] } := by
  rw [analyze_crate]
  rw [if_pos (by simp [h])]
  rfl

theorem c7_witness :
    analyze_crate { name := "empty_crate", version := "0.2.0", srcPath := ["src", "lib.rs"] }
      [] =
      .ok { crate_ := { name := "empty_crate", version := "0.2.0" },
            modules := [], structs := [], enums := [], functions := [] } :=
  c7_missing_entry_file_success _ _ rfl

/-- C9: for every finite file system and every traversal state, the
traversal loop terminates: some finite fuel makes the fuel-indexed copy of
the loop finish, and its answer is the loop's answer — the worklist empties
even in the presence of cyclic or redundant submodule declarations. -/
theorem c9_traversal_terminates (fs : FS) (wl : List WorkItem) (v : List Path)
    (r : AnalysisResult) :
    ∃ n out, traverseFuel fs n wl v r = some out ∧
      traverse fs wl v r = out.map Prod.snd :=
  traverse_eq_fuel fs wl v r

/-- Shape of a successful Declaration Extractor call: the module descriptor
carries the given file and path and the content's docstring and
declarations; every item's path is the given path extended by its name. -/
theorem parse_some_spec {file : Option Path} {pfx : Path} {content : FileContent}
    {module : Module} {structs : List Struct} {enums : List Enum}
    {functions : List Function}
    (h : Module.parse file pfx content = some (module, structs, enums, functions)) :
    module = { file := file, path := pfx, docstring := content.docstring,
               declarations := content.declarations } ∧
    structs = content.structDecls.map (fun d => { path := pfx ++ [d.1], docstring := d.2 }) ∧
    enums = content.enumDecls.map (fun d => { path := pfx ++ [d.1], docstring := d.2 }) ∧
    functions = content.fnDecls.map (fun d => { path := pfx ++ [d.1], docstring := d.2 }) := by
  rw [Module.parse] at h
  by_cases hok : content.parseOk
  · rw [if_pos hok] at h
    simp only [Option.some.injEq, Prod.mk.injEq] at h
    obtain ⟨h1, h2, h3, h4⟩ := h
    exact ⟨h1.symm, h2.symm, h3.symm, h4.symm⟩
  · rw [if_neg hok] at h
    exact absurd h (by simp)

/-- Inversion of one step of the fuel-indexed loop. -/
theorem traverseFuel_succ_inv {fs : FS} {n : Nat} {wl : List WorkItem} {v : List Path}
    {r : AnalysisResult} {out} (h : traverseFuel fs (n + 1) wl v r = some out) :
    (wl.getLast? = none ∧ out = .ok (v, r)) ∨
    (∃ pd mn pa, wl.getLast? = some (pd, mn, pa) ∧
      ((resolveModule fs pd mn = none ∧ traverseFuel fs n wl.dropLast v r = some out) ∨
       (∃ mp sd, resolveModule fs pd mn = some (mp, sd) ∧
         ((mp ∈ v ∧ traverseFuel fs n wl.dropLast v r = some out) ∨
          (mp ∉ v ∧
            ((fs.lookup mp = none ∧ out = .error (.ioError mp)) ∨
             (∃ content, fs.lookup mp = some content ∧
               ((Module.parse (some mp) (pa ++ [mn]) content = none ∧
                 out = .error (.parseError mp)) ∨
                (∃ module structs enums functions,
                  Module.parse (some mp) (pa ++ [mn]) content =
                    some (module, structs, enums, functions) ∧
                  traverseFuel fs n
                    (wl.dropLast ++ module.declarations.map (fun s => (sd, s, pa ++ [mn])))
                    (v ++ [mp])
                    { r with modules := r.modules ++ [module],
                             structs := r.structs ++ structs,
                             enums := r.enums ++ enums,
                             functions := r.functions ++ functions } = some out))))))))) := by
  rw [traverseFuel] at h
  rcases hq : wl.getLast? with _ | ⟨pd, mn, pa⟩ <;> rw [hq] at h <;> simp only at h
  · exact Or.inl ⟨rfl, (Option.some.inj h).symm⟩
  · right
    refine ⟨pd, mn, pa, rfl, ?_⟩
    rcases hres : resolveModule fs pd mn with _ | ⟨mp, sd⟩ <;> rw [hres] at h <;>
      simp only at h
    · exact Or.inl ⟨rfl, h⟩
    · right
      refine ⟨mp, sd, rfl, ?_⟩
      by_cases hv : mp ∈ v
      · rw [if_pos hv] at h
        exact Or.inl ⟨hv, h⟩
      · rw [if_neg hv] at h
        right
        refine ⟨hv, ?_⟩
        rcases hlk : fs.lookup mp with _ | content <;> rw [hlk] at h <;> simp only at h
        · exact Or.inl ⟨rfl, (Option.some.inj h).symm⟩
        · right
          refine ⟨content, rfl, ?_⟩
          rcases hp : Module.parse (some mp) (pa ++ [mn]) content with
            _ | ⟨module, structs, enums, functions⟩ <;> rw [hp] at h <;> simp only at h
          · exact Or.inl ⟨rfl, (Option.some.inj h).symm⟩
          · exact Or.inr ⟨module, structs, enums, functions, rfl, h⟩

/-- Along a successful fuel run, the modules appended by the loop are in
one-to-one correspondence with the newly visited files, which are pairwise
distinct and disjoint from the files already visited. -/
theorem traverseFuel_new_files {fs : FS} : ∀ {n : Nat} {wl : List WorkItem}
    {v : List Path} {r : AnalysisResult} {v' : List Path} {res : AnalysisResult},
    traverseFuel fs n wl v r = some (.ok (v', res)) →
    ∃ nf : List Path, v' = v ++ nf ∧ nf.Nodup ∧ (∀ p ∈ nf, p ∉ v) ∧
      res.modules.map Module.file = r.modules.map Module.file ++ nf.map some := by
  intro n
  induction n with
  | zero => intro wl v r v' res h; rw [traverseFuel] at h; exact absurd h (by simp)
  | succ n ih =>
    intro wl v r v' res h
    rcases traverseFuel_succ_inv h with ⟨_, hout⟩ | ⟨pd, mn, pa, hq, hrest⟩
    · simp only [Except.ok.injEq, Prod.mk.injEq] at hout
      obtain ⟨rfl, rfl⟩ := hout
      exact ⟨[], by simp, by simp, by simp, by simp⟩
    · rcases hrest with ⟨hres, hrec⟩ | ⟨mp, sd, hres, hrest⟩
      · exact ih hrec
      · rcases hrest with ⟨hv, hrec⟩ | ⟨hv, hrest⟩
        · exact ih hrec
        · rcases hrest with ⟨hlk, hout⟩ | ⟨content, hlk, hrest⟩
          · exact absurd hout (by simp)
          · rcases hrest with ⟨hp, hout⟩ | ⟨module, structs, enums, functions, hp, hrec⟩
            · exact absurd hout (by simp)
            · obtain ⟨nf', hv', hnd', hdisj', hfiles'⟩ := ih hrec
              obtain ⟨hmod, _, _, _⟩ := parse_some_spec hp
              refine ⟨mp :: nf', ?_, ?_, ?_, ?_⟩
              · rw [hv']
                simp
              · rw [List.nodup_cons]
                refine ⟨fun hmem => ?_, hnd'⟩
                exact hdisj' mp hmem (by simp)
              · intro p hp'
                rcases List.mem_cons.mp hp' with rfl | hp'
                · exact hv
                · intro hpv
                  exact hdisj' p hp' (List.mem_append_left _ hpv)
              · rw [hfiles']
                simp only [List.map_append, List.map_cons, List.map_nil]
                rw [hmod]
                simp

/-- C2 counterexample: the entry file is not protected by the visited set.
A crate whose single file `src/lib.rs` declares submodule `lib` — which
resolves back to `src/lib.rs` itself — gets its one file parsed twice and
yields two `Module` entries with the same file. -/
def selfRefFS : FS := [(["src", "lib.rs"], mkContent none ["lib"] [] [])]

/-- Metadata of the self-referencing crate. -/
def selfRefMeta : CrateMeta :=
  { name := "c", version := "0.1.0", srcPath := ["src", "lib.rs"] }

/-- C2 counterexample: on the self-referencing crate the claim fails as
stated — the entry file `src/lib.rs` is read and parsed twice (the visited
set never contains it), so a tree with 1 module file yields 2 `Module`
entries carrying the same file. -/
theorem c2_counterexample_entry_reread :
    selfRefFS.length = 1 ∧
    ∃ res, analyze_crate selfRefMeta selfRefFS = .ok res ∧
      res.modules.length = 2 ∧
      res.modules.map Module.file = [some ["src", "lib.rs"], some ["src", "lib.rs"]] := by
  refine ⟨rfl, ?_⟩
  have h0 : analyze_crate selfRefMeta selfRefFS =
      traverse selfRefFS [(["src"], "lib", ["c"])] []
        { crate_ := { name := "c", version := "0.1.0" },
          modules := [{ file := some ["src", "lib.rs"], path := ["c"],
                        docstring := none, declarations := ["lib"] }],
          structs := [], enums := [], functions := [] } := rfl
  have hfuel : traverseFuel selfRefFS 10 [(["src"], "lib", ["c"])] []
      { crate_ := { name := "c", version := "0.1.0" },
        modules := [{ file := some ["src", "lib.rs"], path := ["c"],
                      docstring := none, declarations := ["lib"] }],
        structs := [], enums := [], functions := [] } =
      some (.ok ([["src", "lib.rs"]],
        { crate_ := { name := "c", version := "0.1.0" },
          modules := [{ file := some ["src", "lib.rs"], path := ["c"],
                        docstring := none, declarations := ["lib"] },
                      { file := some ["src", "lib.rs"], path := ["c", "lib"],
                        docstring := none, declarations := ["lib"] }],
          structs := [], enums := [], functions := [] })) := by rfl
  refine ⟨{ crate_ := { name := "c", version := "0.1.0" },
            modules := [{ file := some ["src", "lib.rs"], path := ["c"],
                          docstring := none, declarations := ["lib"] },
                        { file := some ["src", "lib.rs"], path := ["c", "lib"],
                          docstring := none, declarations := ["lib"] }],
            structs := [], enums := [], functions := [] }, ?_, rfl, rfl⟩
  rw [h0, traverseFuel_agree hfuel]
  rfl

/-- C2 (amended): the worklist traversal itself never reads a file twice —
in every successful run, the `Module` entries after the root one carry
pairwise-distinct on-disk files; the entry file, however, is not in the
initial visited set, so a declaration resolving back to it re-parses it
(see the counterexample). -/
theorem c2_traversal_dedup {meta : CrateMeta} {fs : FS} {res : AnalysisResult}
    (h : analyze_crate meta fs = .ok res) :
    ∃ nf : List Path, (res.modules.drop 1).map Module.file = nf.map some ∧ nf.Nodup := by
  rcases analyze_crate_cases h with ⟨_, rfl⟩ |
    ⟨content, module, structs, enums, functions, hlk, hp, htrav⟩
  · exact ⟨[], by simp [AnalysisResult.new], List.nodup_nil⟩
  · obtain ⟨n, v', hfuel⟩ := traverse_ok_fuel htrav
    obtain ⟨nf, _, hnd, _, hfiles⟩ := traverseFuel_new_files hfuel
    refine ⟨nf, ?_, hnd⟩
    have hdrop : ((res.modules.map Module.file).drop 1) = nf.map some := by
      rw [hfiles]
      simp
    rw [List.map_drop, hdrop]

theorem c2_witness :
    ∃ nf : List Path,
      ((testCrateExpected.modules.drop 1).map Module.file = nf.map some ∧ nf.Nodup) :=
  c2_traversal_dedup analyze_testCrate

theorem eq_dropLast_concat {α : Type _} {l : List α} {a : α}
    (h : l.getLast? = some a) : l = l.dropLast ++ [a] :=
  (List.dropLast_append_getLast? a (Option.mem_def.mpr h)).symm

theorem countP_eq_one_of_nodup_mem {l : List Path} (hnd : l.Nodup) {t : Path}
    (hmem : t ∈ l) : l.countP (fun p => decide (p = t)) = 1 := by
  induction l with
  | nil => simp at hmem
  | cons hd tl ih =>
    rw [List.countP_cons]
    rw [List.nodup_cons] at hnd
    rcases List.mem_cons.mp hmem with rfl | htl
    · have hz : tl.countP (fun p => decide (p = t)) = 0 := by
        rw [List.countP_eq_zero]
        intro p hptl
        simp only [decide_eq_true_eq]
        intro hpt
        exact hnd.1 (hpt ▸ hptl)
      rw [hz]
      simp
    · have hne : hd ≠ t := fun heq => hnd.1 (heq ▸ htl)
      rw [ih hnd.2 htl]
      simp [hne]

/-- Inductive invariant of the traversal loop, relating the worklist, the
visited-file list and the accumulated result. -/
structure TravInv (fs : FS) (wl : List WorkItem) (v : List Path)
    (r : AnalysisResult) : Prop where
  nodup : (r.modules.map Module.path).Nodup
  root_len : ∀ h0 : 0 < r.modules.length, (r.modules.get ⟨0, h0⟩).path.length = 1
  tail_len : ∀ (i : Nat) (hi : i < r.modules.length), 0 < i →
    1 < (r.modules.get ⟨i, hi⟩).path.length
  parent_before : ∀ (i : Nat) (hi : i < r.modules.length), 0 < i →
    ∃ j, ∃ hj : j < r.modules.length, j < i ∧
      (r.modules.get ⟨j, hj⟩).path = (r.modules.get ⟨i, hi⟩).path.dropLast
  wl_parent : ∀ it ∈ wl, it.2.2 ∈ r.modules.map Module.path
  wl_dir : ∀ it ∈ wl, ∀ it' ∈ wl, it.2.2 = it'.2.2 → it.1 = it'.1
  wl_fresh : ∀ it ∈ wl, (it.2.2 ++ [it.2.1]) ∈ r.modules.map Module.path →
    ∀ f sd, resolveModule fs it.1 it.2.1 = some (f, sd) → f ∈ v
  items_pfx :
    (∀ s ∈ r.structs, s.path ≠ [] ∧ s.path.dropLast ∈ r.modules.map Module.path) ∧
    (∀ e ∈ r.enums, e.path ≠ [] ∧ e.path.dropLast ∈ r.modules.map Module.path) ∧
    (∀ f ∈ r.functions, f.path ≠ [] ∧ f.path.dropLast ∈ r.modules.map Module.path)

theorem TravInv.path_pos {fs : FS} {wl : List WorkItem} {v : List Path}
    {r : AnalysisResult} (inv : TravInv fs wl v r) {p : Path}
    (hp : p ∈ r.modules.map Module.path) : 0 < p.length := by
  obtain ⟨m, hm, rfl⟩ := List.mem_map.mp hp
  obtain ⟨⟨i, hi⟩, heq⟩ := List.get_of_mem hm
  subst heq
  rcases Nat.eq_zero_or_pos i with rfl | hpos
  · rw [inv.root_len hi]
    exact Nat.one_pos
  · have := inv.tail_len i hi hpos
    omega

theorem TravInv.mem_paths_structure {fs : FS} {wl : List WorkItem} {v : List Path}
    {r : AnalysisResult} (inv : TravInv fs wl v r) {p : Path}
    (hp : p ∈ r.modules.map Module.path) :
    p.length = 1 ∨ p.dropLast ∈ r.modules.map Module.path := by
  obtain ⟨m, hm, rfl⟩ := List.mem_map.mp hp
  obtain ⟨⟨i, hi⟩, heq⟩ := List.get_of_mem hm
  subst heq
  rcases Nat.eq_zero_or_pos i with rfl | hpos
  · exact Or.inl (inv.root_len hi)
  · obtain ⟨j, hj, _, hjeq⟩ := inv.parent_before i hi hpos
    right
    rw [← hjeq]
    exact List.mem_map.mpr ⟨_, List.get_mem _ _ _, rfl⟩

/-- Discarding the popped worklist tuple preserves the invariant. -/
theorem TravInv.drop_item {fs : FS} {wl : List WorkItem} {v : List Path}
    {r : AnalysisResult} (inv : TravInv fs wl v r) :
    TravInv fs wl.dropLast v r :=
  have hsub : ∀ it ∈ wl.dropLast, it ∈ wl :=
    fun it hit => (List.dropLast_sublist wl).subset hit
  { nodup := inv.nodup, root_len := inv.root_len, tail_len := inv.tail_len,
    parent_before := inv.parent_before,
    wl_parent := fun it hit => inv.wl_parent it (hsub it hit),
    wl_dir := fun it hit it' hit' => inv.wl_dir it (hsub it hit) it' (hsub it' hit'),
    wl_fresh := fun it hit => inv.wl_fresh it (hsub it hit),
    items_pfx := inv.items_pfx }

/-- Visiting a fresh file preserves the invariant; moreover the appended
module's path is the popped tuple's `parent ++ [name]`, that path is new,
and no one-element extension of it is present after the step either. -/
theorem TravInv.step_visit {fs : FS} {wl : List WorkItem} {v : List Path}
    {r : AnalysisResult} {pd : Path} {mn : String} {pa : Path}
    {mp sd : Path} {content : FileContent} {module : Module}
    {structs : List Struct} {enums : List Enum} {functions : List Function}
    (inv : TravInv fs wl v r)
    (hq : wl.getLast? = some (pd, mn, pa))
    (hres : resolveModule fs pd mn = some (mp, sd))
    (hv : mp ∉ v)
    (hp : Module.parse (some mp) (pa ++ [mn]) content =
      some (module, structs, enums, functions)) :
    TravInv fs
      (wl.dropLast ++ module.declarations.map (fun s => (sd, s, pa ++ [mn])))
      (v ++ [mp])
      { r with modules := r.modules ++ [module], structs := r.structs ++ structs,
               enums := r.enums ++ enums, functions := r.functions ++ functions } ∧
    module.path = pa ++ [mn] ∧
    (pa ++ [mn]) ∉ r.modules.map Module.path ∧
    (∀ x : String,
      ((pa ++ [mn]) ++ [x]) ∉ r.modules.map Module.path ++ [pa ++ [mn]]) := by
  have hsub : ∀ it ∈ wl.dropLast, it ∈ wl :=
    fun it hit => (List.dropLast_sublist wl).subset hit
  have hwl_eq : wl = wl.dropLast ++ [(pd, mn, pa)] := eq_dropLast_concat hq
  have hpop : ((pd, mn, pa) : WorkItem) ∈ wl := by
    rw [hwl_eq]
    exact List.mem_append_right _ (List.mem_singleton.mpr rfl)
  obtain ⟨hmod, hsts, hens, hfns⟩ := parse_some_spec hp
  have hmpath : module.path = pa ++ [mn] := by rw [hmod]
  have hmdecl : module.declarations = content.declarations := by rw [hmod]
  have hq_fresh : (pa ++ [mn]) ∉ r.modules.map Module.path := by
    intro hmem
    exact hv (inv.wl_fresh (pd, mn, pa) hpop hmem mp sd hres)
  have hpa_mem : pa ∈ r.modules.map Module.path := inv.wl_parent (pd, mn, pa) hpop
  have hpa_pos : 0 < pa.length := inv.path_pos hpa_mem
  have hrne : r.modules ≠ [] := by
    intro hnil
    rw [hnil] at hpa_mem
    simp at hpa_mem
  have hrpos : 0 < r.modules.length := List.length_pos.mpr hrne
  have hmapp : (r.modules ++ [module]).map Module.path =
      r.modules.map Module.path ++ [pa ++ [mn]] := by
    rw [List.map_append, List.map_cons, List.map_nil, hmpath]
  have hext : ∀ x : String,
      ((pa ++ [mn]) ++ [x]) ∉ r.modules.map Module.path ++ [pa ++ [mn]] := by
    intro x hmem
    rcases List.mem_append.mp hmem with hP | hqq
    · rcases inv.mem_paths_structure hP with hlen | hdl
      · simp only [List.length_append, List.length_cons, List.length_nil] at hlen
        omega
      · rw [List.dropLast_concat] at hdl
        exact hq_fresh hdl
    · have heq := List.mem_singleton.mp hqq
      have hlen := congrArg List.length heq
      simp at hlen
  refine ⟨?_, hmpath, hq_fresh, hext⟩
  constructor
  · -- nodup
    show ((r.modules ++ [module]).map Module.path).Nodup
    rw [hmapp]
    rw [List.nodup_append]
    refine ⟨inv.nodup, List.nodup_singleton _, ?_⟩
    intro a ha hamem
    rw [List.mem_singleton.mp hamem] at ha
    exact hq_fresh ha
  · -- root_len
    intro h0
    show (((r.modules ++ [module]).get ⟨0, h0⟩).path.length = 1)
    simp only [List.get_eq_getElem]
    rw [List.getElem_append_left hrpos]
    exact inv.root_len hrpos
  · -- tail_len
    intro i hi hipos
    show 1 < ((r.modules ++ [module]).get ⟨i, hi⟩).path.length
    simp only [List.get_eq_getElem]
    rcases Nat.lt_or_ge i r.modules.length with hlt | hge
    · rw [List.getElem_append_left hlt]
      exact inv.tail_len i hlt hipos
    · have hieq : i = r.modules.length := by
        have h2 := hi
        simp only [List.length_append, List.length_cons, List.length_nil] at h2
        omega
      subst hieq
      rw [List.getElem_append_right (Nat.le_refl _)]
      simp only [Nat.sub_self]
      rw [List.getElem_cons_zero, hmpath]
      simp only [List.length_append, List.length_cons, List.length_nil]
      omega
  · -- parent_before
    intro i hi hipos
    rcases Nat.lt_or_ge i r.modules.length with hlt | hge
    · obtain ⟨j, hj, hji, hjeq⟩ := inv.parent_before i hlt hipos
      refine ⟨j, by simp only [List.length_append]; omega, hji, ?_⟩
      show ((r.modules ++ [module]).get ⟨j, _⟩).path =
          ((r.modules ++ [module]).get ⟨i, _⟩).path.dropLast
      simp only [List.get_eq_getElem]
      rw [List.getElem_append_left hj, List.getElem_append_left hlt]
      exact hjeq
    · have hieq : i = r.modules.length := by
        have h2 := hi
        simp only [List.length_append, List.length_cons, List.length_nil] at h2
        omega
      subst hieq
      obtain ⟨m0, hm0, hm0eq⟩ := List.mem_map.mp hpa_mem
      obtain ⟨⟨j, hj⟩, hjget⟩ := List.get_of_mem hm0
      refine ⟨j, by simp only [List.length_append]; omega, by omega, ?_⟩
      show ((r.modules ++ [module]).get ⟨j, _⟩).path =
          ((r.modules ++ [module]).get ⟨r.modules.length, hi⟩).path.dropLast
      simp only [List.get_eq_getElem]
      rw [List.getElem_append_right (Nat.le_refl _)]
      simp only [Nat.sub_self]
      rw [List.getElem_cons_zero, hmpath, List.dropLast_concat]
      rw [List.getElem_append_left hj]
      exact (congrArg Module.path hjget).trans hm0eq
  · -- wl_parent
    intro it hit
    rcases List.mem_append.mp hit with hold | hnew
    · exact hmapp ▸ List.mem_append_left _ (inv.wl_parent it (hsub it hold))
    · obtain ⟨s, _, rfl⟩ := List.mem_map.mp hnew
      exact hmapp ▸ List.mem_append_right _ (List.mem_singleton.mpr rfl)
  · -- wl_dir
    intro it hit it' hit' hpp
    rcases List.mem_append.mp hit with hold | hnew <;>
      rcases List.mem_append.mp hit' with hold' | hnew'
    · exact inv.wl_dir it (hsub it hold) it' (hsub it' hold') hpp
    · obtain ⟨s, _, rfl⟩ := List.mem_map.mp hnew'
      exfalso
      have hit22 : it.2.2 = pa ++ [mn] := hpp
      exact hq_fresh (hit22 ▸ inv.wl_parent it (hsub it hold))
    · obtain ⟨s, _, rfl⟩ := List.mem_map.mp hnew
      exfalso
      have hit22 : it'.2.2 = pa ++ [mn] := hpp.symm
      exact hq_fresh (hit22 ▸ inv.wl_parent it' (hsub it' hold'))
    · obtain ⟨s, _, rfl⟩ := List.mem_map.mp hnew
      obtain ⟨s', _, rfl⟩ := List.mem_map.mp hnew'
      rfl
  · -- wl_fresh
    intro it hit hmem f sd' hres'
    have hmem' : (it.2.2 ++ [it.2.1]) ∈
        r.modules.map Module.path ++ [pa ++ [mn]] := by
      rw [← hmapp]
      exact hmem
    rcases List.mem_append.mp hit with hold | hnew
    · rcases List.mem_append.mp hmem' with hP | hqq
      · exact List.mem_append_left _
          (inv.wl_fresh it (hsub it hold) hP f sd' hres')
      · have hq' : it.2.2 = pa ∧ it.2.1 = mn := by
          have heq := List.mem_singleton.mp hqq
          rw [← List.concat_eq_append, ← List.concat_eq_append] at heq
          exact List.concat_inj.mp heq
        have hdir : it.1 = pd := inv.wl_dir it (hsub it hold) (pd, mn, pa) hpop hq'.1
        rw [hdir, hq'.2, hres] at hres'
        have hpair := Option.some.inj hres'
        have hmpf : mp = f := congrArg Prod.fst hpair
        rw [← hmpf]
        exact List.mem_append_right _ (List.mem_singleton.mpr rfl)
    · exfalso
      obtain ⟨s, _, rfl⟩ := List.mem_map.mp hnew
      rcases List.mem_append.mp hmem' with hP | hqq
      · rcases inv.mem_paths_structure hP with hlen | hdl
        · simp only [List.length_append, List.length_cons, List.length_nil] at hlen
          omega
        · rw [List.dropLast_concat] at hdl
          exact hq_fresh hdl
      · have heq := List.mem_singleton.mp hqq
        have hlen := congrArg List.length heq
        simp at hlen
  · -- items_pfx
    refine ⟨?_, ?_, ?_⟩
    · intro s hs
      rcases List.mem_append.mp hs with hold | hnew
      · have h := inv.items_pfx.1 s hold
        exact ⟨h.1, hmapp ▸ List.mem_append_left _ h.2⟩
      · rw [hsts] at hnew
        obtain ⟨d, _, rfl⟩ := List.mem_map.mp hnew
        refine ⟨by simp, ?_⟩
        show ((pa ++ [mn]) ++ [d.1]).dropLast ∈ _
        rw [List.dropLast_concat, hmapp]
        exact List.mem_append_right _ (List.mem_singleton.mpr rfl)
    · intro e he
      rcases List.mem_append.mp he with hold | hnew
      · have h := inv.items_pfx.2.1 e hold
        exact ⟨h.1, hmapp ▸ List.mem_append_left _ h.2⟩
      · rw [hens] at hnew
        obtain ⟨d, _, rfl⟩ := List.mem_map.mp hnew
        refine ⟨by simp, ?_⟩
        show ((pa ++ [mn]) ++ [d.1]).dropLast ∈ _
        rw [List.dropLast_concat, hmapp]
        exact List.mem_append_right _ (List.mem_singleton.mpr rfl)
    · intro f hf
      rcases List.mem_append.mp hf with hold | hnew
      · have h := inv.items_pfx.2.2 f hold
        exact ⟨h.1, hmapp ▸ List.mem_append_left _ h.2⟩
      · rw [hfns] at hnew
        obtain ⟨d, _, rfl⟩ := List.mem_map.mp hnew
        refine ⟨by simp, ?_⟩
        show ((pa ++ [mn]) ++ [d.1]).dropLast ∈ _
        rw [List.dropLast_concat, hmapp]
        exact List.mem_append_right _ (List.mem_singleton.mpr rfl)

/-- The invariant is preserved along every successful fuel run, and holds of
the final state (with an empty worklist). -/
theorem traverseFuel_inv {fs : FS} : ∀ {n : Nat} {wl : List WorkItem} {v : List Path}
    {r : AnalysisResult} {v' : List Path} {res : AnalysisResult},
    TravInv fs wl v r → traverseFuel fs n wl v r = some (.ok (v', res)) →
    TravInv fs [] v' res := by
  intro n
  induction n with
  | zero => intro wl v r v' res _ h; rw [traverseFuel] at h; exact absurd h (by simp)
  | succ n ih =>
    intro wl v r v' res inv h
    rcases traverseFuel_succ_inv h with ⟨hq, hout⟩ | ⟨pd, mn, pa, hq, hrest⟩
    · simp only [Except.ok.injEq, Prod.mk.injEq] at hout
      obtain ⟨rfl, rfl⟩ := hout
      exact { nodup := inv.nodup, root_len := inv.root_len, tail_len := inv.tail_len,
              parent_before := inv.parent_before,
              wl_parent := by simp, wl_dir := by simp, wl_fresh := by simp,
              items_pfx := inv.items_pfx }
    · rcases hrest with ⟨hres, hrec⟩ | ⟨mp, sd, hres, hrest⟩
      · exact ih inv.drop_item hrec
      · rcases hrest with ⟨hv, hrec⟩ | ⟨hv, hrest⟩
        · exact ih inv.drop_item hrec
        · rcases hrest with ⟨hlk, hout⟩ | ⟨content, hlk, hrest⟩
          · exact absurd hout (by simp)
          · rcases hrest with ⟨hp, hout⟩ | ⟨module, structs, enums, functions, hp, hrec⟩
            · exact absurd hout (by simp)
            · exact ih (inv.step_visit hq hres hv hp).1 hrec

/-- The invariant holds of the state `analyze_crate` seeds the traversal
loop with after parsing the entry module. -/
theorem seed_inv {meta : CrateMeta} (fs : FS) {content : FileContent}
    {module : Module} {structs : List Struct} {enums : List Enum}
    {functions : List Function}
    (hp : Module.parse (some meta.srcPath) [meta.name] content =
      some (module, structs, enums, functions)) :
    TravInv fs (module.declarations.map (fun s => (meta.srcPath.dropLast, s, [meta.name]))) []
      { crate_ := { name := meta.name, version := meta.version },
        modules := [module], structs := structs, enums := enums,
        functions := functions } := by
  obtain ⟨hmod, hsts, hens, hfns⟩ := parse_some_spec hp
  have hmpath : module.path = [meta.name] := by rw [hmod]
  constructor
  · show ([module].map Module.path).Nodup
    simp
  · intro h0
    show ([module].get ⟨0, h0⟩).path.length = 1
    simp [hmpath]
  · intro i hi hipos
    exfalso
    simp only [List.length_cons, List.length_nil] at hi
    omega
  · intro i hi hipos
    exfalso
    simp only [List.length_cons, List.length_nil] at hi
    omega
  · intro it hit
    obtain ⟨s, _, rfl⟩ := List.mem_map.mp hit
    show [meta.name] ∈ [module].map Module.path
    simp [hmpath]
  · intro it hit it' hit' _
    obtain ⟨s, _, rfl⟩ := List.mem_map.mp hit
    obtain ⟨s', _, rfl⟩ := List.mem_map.mp hit'
    rfl
  · intro it hit hmem f sd hres
    exfalso
    obtain ⟨s, _, rfl⟩ := List.mem_map.mp hit
    have : ([meta.name] ++ [s]) ∈ [module].map Module.path := hmem
    rw [List.map_cons, List.map_nil, hmpath] at this
    have heq := List.mem_singleton.mp this
    have hlen := congrArg List.length heq
    simp at hlen
  · refine ⟨?_, ?_, ?_⟩
    · intro s hs
      show s.path ≠ [] ∧ s.path.dropLast ∈ [module].map Module.path
      rw [hsts] at hs
      obtain ⟨d, _, rfl⟩ := List.mem_map.mp hs
      refine ⟨by simp, ?_⟩
      show ([meta.name] ++ [d.1]).dropLast ∈ _
      rw [List.dropLast_concat]
      simp [hmpath]
    · intro e he
      show e.path ≠ [] ∧ e.path.dropLast ∈ [module].map Module.path
      rw [hens] at he
      obtain ⟨d, _, rfl⟩ := List.mem_map.mp he
      refine ⟨by simp, ?_⟩
      show ([meta.name] ++ [d.1]).dropLast ∈ _
      rw [List.dropLast_concat]
      simp [hmpath]
    · intro f hf
      show f.path ≠ [] ∧ f.path.dropLast ∈ [module].map Module.path
      rw [hfns] at hf
      obtain ⟨d, _, rfl⟩ := List.mem_map.mp hf
      refine ⟨by simp, ?_⟩
      show ([meta.name] ++ [d.1]).dropLast ∈ _
      rw [List.dropLast_concat]
      simp [hmpath]

/-- Every successful `analyze_crate` run satisfies the final invariant. -/
theorem analyze_crate_inv {meta : CrateMeta} {fs : FS} {res : AnalysisResult}
    (h : analyze_crate meta fs = .ok res) :
    ∃ v, TravInv fs [] v res := by
  rcases analyze_crate_cases h with ⟨_, rfl⟩ |
    ⟨content, module, structs, enums, functions, hlk, hp, htrav⟩
  · refine ⟨[], ?_⟩
    constructor <;> simp [AnalysisResult.new]
  · obtain ⟨n, v', hfuel⟩ := traverse_ok_fuel htrav
    exact ⟨v', traverseFuel_inv (seed_inv fs hp) hfuel⟩

/-- C4: in every successful analysis result, every `Module` has a nonempty
path, and every `Module` whose path does not have length 1 (the root) has a
path that is a one-element extension of the path of exactly one other
`Module` present in the result. -/
theorem c4_tree_consistency {meta : CrateMeta} {fs : FS} {res : AnalysisResult}
    (h : analyze_crate meta fs = .ok res) (m : Module) (hm : m ∈ res.modules) :
    m.path ≠ [] ∧
    (m.path.length ≠ 1 →
      res.modules.countP (fun m2 => decide (m2.path = m.path.dropLast)) = 1) := by
  obtain ⟨v, inv⟩ := analyze_crate_inv h
  have hmem : m.path ∈ res.modules.map Module.path := List.mem_map_of_mem _ hm
  refine ⟨List.ne_nil_of_length_pos (inv.path_pos hmem), ?_⟩
  intro hlen1
  obtain ⟨⟨i, hi⟩, heq⟩ := List.get_of_mem hm
  have hipos : 0 < i := by
    rcases Nat.eq_zero_or_pos i with rfl | hip
    · exact absurd (heq ▸ inv.root_len hi) hlen1
    · exact hip
  obtain ⟨j, hj, _, hjeq⟩ := inv.parent_before i hi hipos
  have hparent : m.path.dropLast ∈ res.modules.map Module.path := by
    rw [← heq, ← hjeq]
    exact List.mem_map.mpr ⟨_, List.get_mem _ _ _, rfl⟩
  have hcount := countP_eq_one_of_nodup_mem inv.nodup hparent
  rw [List.countP_map] at hcount
  exact hcount

theorem c4_witness :
    (({ file := some ["src", "my_module", "my_submodule.rs"],
        path := ["my_crate", "my_module", "my_submodule"],
        docstring := some "The sub-module docstring", declarations := [] } : Module).path ≠ []) ∧
    (testCrateExpected.modules.countP
      (fun m2 => decide (m2.path =
        (({ file := some ["src", "my_module", "my_submodule.rs"],
            path := ["my_crate", "my_module", "my_submodule"],
            docstring := some "The sub-module docstring",
            declarations := [] } : Module)).path.dropLast)) = 1) := by
  have h := c4_tree_consistency analyze_testCrate
    { file := some ["src", "my_module", "my_submodule.rs"],
      path := ["my_crate", "my_module", "my_submodule"],
      docstring := some "The sub-module docstring", declarations := [] }
    (by decide)
  exact ⟨h.1, h.2 (by decide)⟩

/-- C5: in every successful analysis result, every struct, enum, and
function has a nonempty path whose prefix (all but the last element) equals
the path of exactly one `Module` present in the result. -/
theorem c5_item_ownership {meta : CrateMeta} {fs : FS} {res : AnalysisResult}
    (h : analyze_crate meta fs = .ok res) :
    (∀ s ∈ res.structs, s.path ≠ [] ∧
      res.modules.countP (fun m => decide (m.path = s.path.dropLast)) = 1) ∧
    (∀ e ∈ res.enums, e.path ≠ [] ∧
      res.modules.countP (fun m => decide (m.path = e.path.dropLast)) = 1) ∧
    (∀ f ∈ res.functions, f.path ≠ [] ∧
      res.modules.countP (fun m => decide (m.path = f.path.dropLast)) = 1) := by
  obtain ⟨v, inv⟩ := analyze_crate_inv h
  refine ⟨fun s hs => ?_, fun e he => ?_, fun f hf => ?_⟩
  · obtain ⟨hne, hmem⟩ := inv.items_pfx.1 s hs
    have hcount := countP_eq_one_of_nodup_mem inv.nodup hmem
    rw [List.countP_map] at hcount
    exact ⟨hne, hcount⟩
  · obtain ⟨hne, hmem⟩ := inv.items_pfx.2.1 e he
    have hcount := countP_eq_one_of_nodup_mem inv.nodup hmem
    rw [List.countP_map] at hcount
    exact ⟨hne, hcount⟩
  · obtain ⟨hne, hmem⟩ := inv.items_pfx.2.2 f hf
    have hcount := countP_eq_one_of_nodup_mem inv.nodup hmem
    rw [List.countP_map] at hcount
    exact ⟨hne, hcount⟩

theorem c5_witness :
    (∀ s ∈ testCrateExpected.structs, s.path ≠ [] ∧
      testCrateExpected.modules.countP (fun m => decide (m.path = s.path.dropLast)) = 1) ∧
    (∀ e ∈ testCrateExpected.enums, e.path ≠ [] ∧
      testCrateExpected.modules.countP (fun m => decide (m.path = e.path.dropLast)) = 1) ∧
    (∀ f ∈ testCrateExpected.functions, f.path ≠ [] ∧
      testCrateExpected.modules.countP (fun m => decide (m.path = f.path.dropLast)) = 1) :=
  c5_item_ownership analyze_testCrate

/-- C10: in every successful analysis result, the modules list is in
parent-before-child order: the module at index 0 (when one exists) is the
root (path of length 1), and every module whose path is not of length 1 has
the module carrying its one-shorter path prefix at a strictly earlier
index. -/
theorem c10_parent_before_child {meta : CrateMeta} {fs : FS} {res : AnalysisResult}
    (h : analyze_crate meta fs = .ok res) :
    (∀ h0 : 0 < res.modules.length, (res.modules.get ⟨0, h0⟩).path.length = 1) ∧
    (∀ (i : Nat) (hi : i < res.modules.length),
      (res.modules.get ⟨i, hi⟩).path.length ≠ 1 →
      ∃ j, ∃ hj : j < res.modules.length, j < i ∧
        (res.modules.get ⟨j, hj⟩).path = (res.modules.get ⟨i, hi⟩).path.dropLast) := by
  obtain ⟨v, inv⟩ := analyze_crate_inv h
  refine ⟨inv.root_len, fun i hi hlen1 => ?_⟩
  have hipos : 0 < i := by
    rcases Nat.eq_zero_or_pos i with rfl | hip
    · exact absurd (inv.root_len hi) hlen1
    · exact hip
  exact inv.parent_before i hi hipos

theorem c10_witness :
    (∀ h0 : 0 < testCrateExpected.modules.length,
      (testCrateExpected.modules.get ⟨0, h0⟩).path.length = 1) ∧
    (∀ (i : Nat) (hi : i < testCrateExpected.modules.length),
      (testCrateExpected.modules.get ⟨i, hi⟩).path.length ≠ 1 →
      ∃ j, ∃ hj : j < testCrateExpected.modules.length, j < i ∧
        (testCrateExpected.modules.get ⟨j, hj⟩).path =
          (testCrateExpected.modules.get ⟨i, hi⟩).path.dropLast) :=
  c10_parent_before_child analyze_testCrate

/-- The traversal loop generalized over the order pending tuples are
removed (the spec's step "remove one pending tuple"): at each step the next
entry of `picks` (modulo the worklist length) selects which pending tuple to
remove; once `picks` is exhausted the last tuple is removed, which is the
code's stack policy.  Everything else — resolution, the visited set, the
appends to the result and to the worklist — is as in the loop. -/
def traverseOrder (fs : FS) : Nat → List Nat → List WorkItem → List Path →
    AnalysisResult → Option (Except AnalyzeError (List Path × AnalysisResult))
  | 0, _, _, _, _ => none
  | fuel + 1, picks, wl, v, r =>
    match wl[(picks.headD (wl.length - 1)) % wl.length]? with
    | none => some (.ok (v, r))
    | some (parent_dir, module_name, parent) =>
      let rest := wl.eraseIdx ((picks.headD (wl.length - 1)) % wl.length)
      match resolveModule fs parent_dir module_name with
      | none => traverseOrder fs fuel picks.tail rest v r
      | some (module_path, submodule_dir) =>
        if module_path ∈ v then
          traverseOrder fs fuel picks.tail rest v r
        else
          match fs.lookup module_path with
          | none => some (.error (.ioError module_path))
          | some content =>
            let path : Path := parent ++ [module_name]
            match Module.parse (some module_path) path content with
            | none => some (.error (.parseError module_path))
            | some (module, structs, enums, functions) =>
              traverseOrder fs fuel picks.tail
                (rest ++ module.declarations.map (fun s => (submodule_dir, s, path)))
                (v ++ [module_path])
                { r with
                    modules := r.modules ++ [module],
                    structs := r.structs ++ structs,
                    enums := r.enums ++ enums,
                    functions := r.functions ++ functions }

/-- A crate where the same file is reachable through two declaration paths:
`src/lib.rs` declares `a` and `c`; `src/a/mod.rs` declares `c`; `src/c.rs`
exists.  (Because the code resolves `a`'s submodules against `src/`, both
declarations of `c` resolve to `src/c.rs`.) -/
def orderCrateFS : FS :=
  [ (["src", "lib.rs"], mkContent none ["a", "c"] [] []),
    (["src", "a", "mod.rs"], mkContent none ["c"] [] []),
    (["src", "c.rs"], mkContent none [] [] []) ]

/-- Metadata of the order-sensitive crate. -/
def orderCrateMeta : CrateMeta :=
  { name := "r", version := "0.1.0", srcPath := ["src", "lib.rs"] }

/-- C8 counterexample: the set of modules in the result is affected by the
removal order.  On the order-sensitive crate the code's LIFO policy records
`src/c.rs` under path `[r, c]`, while removing the pending tuples in
front-first order records it under `[r, a, c]`: the two removal orders
produce different sets of module paths. -/
theorem c8_counterexample_order_dependent_set :
    ∃ res, analyze_crate orderCrateMeta orderCrateFS = .ok res ∧
      res.modules.map Module.path = [["r"], ["r", "c"], ["r", "a"]] ∧
      ∃ v2 res2, traverseOrder orderCrateFS 10 [0, 1]
          [(["src"], "a", ["r"]), (["src"], "c", ["r"])] []
          { crate_ := { name := "r", version := "0.1.0" },
            modules := [{ file := some ["src", "lib.rs"], path := ["r"],
                          docstring := none, declarations := ["a", "c"] }],
            structs := [], enums := [], functions := [] } =
          some (.ok (v2, res2)) ∧
        res2.modules.map Module.path = [["r"], ["r", "a"], ["r", "a", "c"]] ∧
        (["r", "c"] : Path) ∈ res.modules.map Module.path ∧
        (["r", "c"] : Path) ∉ res2.modules.map Module.path := by
  have h0 : analyze_crate orderCrateMeta orderCrateFS =
      traverse orderCrateFS [(["src"], "a", ["r"]), (["src"], "c", ["r"])] []
        { crate_ := { name := "r", version := "0.1.0" },
          modules := [{ file := some ["src", "lib.rs"], path := ["r"],
                        docstring := none, declarations := ["a", "c"] }],
          structs := [], enums := [], functions := [] } := rfl
  have hfuel : traverseFuel orderCrateFS 10 [(["src"], "a", ["r"]), (["src"], "c", ["r"])] []
      { crate_ := { name := "r", version := "0.1.0" },
        modules := [{ file := some ["src", "lib.rs"], path := ["r"],
                      docstring := none, declarations := ["a", "c"] }],
        structs := [], enums := [], functions := [] } =
      some (.ok ([["src", "c.rs"], ["src", "a", "mod.rs"]],
        { crate_ := { name := "r", version := "0.1.0" },
          modules := [{ file := some ["src", "lib.rs"], path := ["r"],
                        docstring := none, declarations := ["a", "c"] },
                      { file := some ["src", "c.rs"], path := ["r", "c"],
                        docstring := none, declarations := [] },
                      { file := some ["src", "a", "mod.rs"], path := ["r", "a"],
                        docstring := none, declarations := ["c"] }],
          structs := [], enums := [], functions := [] })) := by rfl
  refine ⟨{ crate_ := { name := "r", version := "0.1.0" },
            modules := [{ file := some ["src", "lib.rs"], path := ["r"],
                          docstring := none, declarations := ["a", "c"] },
                        { file := some ["src", "c.rs"], path := ["r", "c"],
                          docstring := none, declarations := [] },
                        { file := some ["src", "a", "mod.rs"], path := ["r", "a"],
                          docstring := none, declarations := ["c"] }],
            structs := [], enums := [], functions := [] }, ?_, rfl, ?_⟩
  · rw [h0, traverseFuel_agree hfuel]
    rfl
  · refine ⟨[["src", "a", "mod.rs"], ["src", "c.rs"]],
      { crate_ := { name := "r", version := "0.1.0" },
        modules := [{ file := some ["src", "lib.rs"], path := ["r"],
                      docstring := none, declarations := ["a", "c"] },
                    { file := some ["src", "a", "mod.rs"], path := ["r", "a"],
                      docstring := none, declarations := ["c"] },
                    { file := some ["src", "c.rs"], path := ["r", "a", "c"],
                      docstring := none, declarations := [] }],
        structs := [], enums := [], functions := [] }, rfl, rfl, by decide, by decide⟩

/-- Factorization of a successful fuel run on an appended worklist: the
appended suffix — the top of the stack — is processed to completion first,
together with everything it spawns, and the prefix is then processed from
the resulting state. -/
theorem traverseFuel_append_inv {fs : FS} : ∀ {n : Nat} {wl1 wl2 : List WorkItem}
    {v : List Path} {r : AnalysisResult} {v' : List Path} {res : AnalysisResult},
    traverseFuel fs n (wl1 ++ wl2) v r = some (.ok (v', res)) →
    ∃ m1 m2 v2 r2, traverseFuel fs m1 wl2 v r = some (.ok (v2, r2)) ∧
      traverseFuel fs m2 wl1 v2 r2 = some (.ok (v', res)) := by
  intro n
  induction n with
  | zero => intro wl1 wl2 v r v' res h; rw [traverseFuel] at h; exact absurd h (by simp)
  | succ n ih =>
    intro wl1 wl2 v r v' res h
    by_cases h2 : wl2 = []
    · subst h2
      rw [List.append_nil] at h
      exact ⟨1, n + 1, v, r, by rw [traverseFuel]; rfl, h⟩
    · rcases traverseFuel_succ_inv h with ⟨hq, hout⟩ | ⟨pd, mn, pa, hq, hrest⟩
      · exfalso
        rw [List.getLast?_append_of_ne_nil _ h2] at hq
        exact h2 (List.getLast?_eq_none_iff.mp hq)
      · have hq2 : wl2.getLast? = some (pd, mn, pa) := by
          rwa [List.getLast?_append_of_ne_nil _ h2] at hq
        have hdrop : (wl1 ++ wl2).dropLast = wl1 ++ wl2.dropLast :=
          List.dropLast_append_of_ne_nil _ h2
        rcases hrest with ⟨hres, hrec⟩ | ⟨mp, sd, hres, hrest⟩
        · rw [hdrop] at hrec
          obtain ⟨m1, m2, v2, r2, hA, hB⟩ := ih hrec
          refine ⟨m1 + 1, m2, v2, r2, ?_, hB⟩
          rw [traverseFuel]
          simp only [hq2, hres]
          exact hA
        · rcases hrest with ⟨hv, hrec⟩ | ⟨hv, hrest⟩
          · rw [hdrop] at hrec
            obtain ⟨m1, m2, v2, r2, hA, hB⟩ := ih hrec
            refine ⟨m1 + 1, m2, v2, r2, ?_, hB⟩
            rw [traverseFuel]
            simp only [hq2, hres, if_pos hv]
            exact hA
          · rcases hrest with ⟨hlk, hout⟩ | ⟨content, hlk, hrest⟩
            · exact absurd hout (by simp)
            · rcases hrest with ⟨hp, hout⟩ | ⟨module, structs, enums, functions, hp, hrec⟩
              · exact absurd hout (by simp)
              · rw [hdrop, List.append_assoc] at hrec
                obtain ⟨m1, m2, v2, r2, hA, hB⟩ := ih hrec
                refine ⟨m1 + 1, m2, v2, r2, ?_, hB⟩
                rw [traverseFuel]
                simp only [hq2, hres, if_neg hv, hlk, hp]
                exact hA

/-- Growth of the module list along a fuel run: the final module list
extends the initial one, and every appended module's path is either exactly
`parent ++ [name]` of a tuple of the initial worklist, or a one-element
extension of the path of another appended module. -/
theorem traverseFuel_growth {fs : FS} : ∀ {n : Nat} {wl : List WorkItem}
    {v : List Path} {r : AnalysisResult} {v' : List Path} {res : AnalysisResult},
    traverseFuel fs n wl v r = some (.ok (v', res)) →
    ∃ extra, res.modules = r.modules ++ extra ∧
      ∀ m ∈ extra, (∃ it ∈ wl, m.path = it.2.2 ++ [it.2.1]) ∨
        (∃ m' ∈ extra, m'.path = m.path.dropLast) := by
  intro n
  induction n with
  | zero => intro wl v r v' res h; rw [traverseFuel] at h; exact absurd h (by simp)
  | succ n ih =>
    intro wl v r v' res h
    rcases traverseFuel_succ_inv h with ⟨hq, hout⟩ | ⟨pd, mn, pa, hq, hrest⟩
    · simp only [Except.ok.injEq, Prod.mk.injEq] at hout
      obtain ⟨rfl, rfl⟩ := hout
      exact ⟨[], by simp, by simp⟩
    · have hsub : ∀ it ∈ wl.dropLast, it ∈ wl :=
        fun it hit => (List.dropLast_sublist wl).subset hit
      have hwl_eq : wl = wl.dropLast ++ [(pd, mn, pa)] := eq_dropLast_concat hq
      have hpop : ((pd, mn, pa) : WorkItem) ∈ wl := by
        rw [hwl_eq]
        exact List.mem_append_right _ (List.mem_singleton.mpr rfl)
      rcases hrest with ⟨hres, hrec⟩ | ⟨mp, sd, hres, hrest⟩
      · obtain ⟨extra, hext, hprov⟩ := ih hrec
        refine ⟨extra, hext, fun m hm => ?_⟩
        rcases hprov m hm with ⟨it, hit, hpath⟩ | hup
        · exact Or.inl ⟨it, hsub _ hit, hpath⟩
        · exact Or.inr hup
      · rcases hrest with ⟨hv, hrec⟩ | ⟨hv, hrest⟩
        · obtain ⟨extra, hext, hprov⟩ := ih hrec
          refine ⟨extra, hext, fun m hm => ?_⟩
          rcases hprov m hm with ⟨it, hit, hpath⟩ | hup
          · exact Or.inl ⟨it, hsub _ hit, hpath⟩
          · exact Or.inr hup
        · rcases hrest with ⟨hlk, hout⟩ | ⟨content, hlk, hrest⟩
          · exact absurd hout (by simp)
          · rcases hrest with ⟨hp, hout⟩ | ⟨module, structs, enums, functions, hp, hrec⟩
            · exact absurd hout (by simp)
            · obtain ⟨extra, hext, hprov⟩ := ih hrec
              obtain ⟨hmod, _, _, _⟩ := parse_some_spec hp
              have hmpath : module.path = pa ++ [mn] := by rw [hmod]
              refine ⟨module :: extra, ?_, ?_⟩
              · rw [hext]
                simp
              · intro m hm
                rcases List.mem_cons.mp hm with rfl | hm
                · exact Or.inl ⟨(pd, mn, pa), hpop, hmpath⟩
                · rcases hprov m hm with ⟨it, hit, hpath⟩ | ⟨m', hm', hup⟩
                  · rcases List.mem_append.mp hit with hold | hnew
                    · exact Or.inl ⟨it, hsub _ hold, hpath⟩
                    · obtain ⟨s, _, heq⟩ := List.mem_map.mp hnew
                      subst heq
                      refine Or.inr ⟨module, List.mem_cons_self _ _, ?_⟩
                      rw [hpath]
                      show module.path = ((pa ++ [mn]) ++ [s]).dropLast
                      rw [List.dropLast_concat, hmpath]
                  · exact Or.inr ⟨m', List.mem_cons_of_mem _ hm', hup⟩

/-- Decomposition of a successful fuel run at the creation of a module `M`:
either `M` was already in the initial result, or there is an intermediate
state — reached just after `M` was appended — from which the rest of the run
proceeds with `M`'s declared submodule tuples freshly pushed on top of a
worklist none of whose older tuples has `M.path` as its parent path, while
no module with a path extending `M.path` by one element exists yet. -/
theorem traverseFuel_creation {fs : FS} : ∀ {n : Nat} {wl : List WorkItem}
    {v : List Path} {r : AnalysisResult} {v' : List Path} {res : AnalysisResult},
    TravInv fs wl v r → traverseFuel fs n wl v r = some (.ok (v', res)) →
    ∀ M ∈ res.modules, M ∈ r.modules ∨
      ∃ n2 wl2 sd v2 r2,
        TravInv fs (wl2 ++ M.declarations.map (fun s => (sd, s, M.path))) v2 r2 ∧
        traverseFuel fs n2 (wl2 ++ M.declarations.map (fun s => (sd, s, M.path)))
          v2 r2 = some (.ok (v', res)) ∧
        (∀ it ∈ wl2, it.2.2 ≠ M.path) ∧
        M.path ∈ r2.modules.map Module.path ∧
        (∀ x : String, (M.path ++ [x]) ∉ r2.modules.map Module.path) := by
  intro n
  induction n with
  | zero => intro wl v r v' res _ h; rw [traverseFuel] at h; exact absurd h (by simp)
  | succ n ih =>
    intro wl v r v' res inv h
    rcases traverseFuel_succ_inv h with ⟨hq, hout⟩ | ⟨pd, mn, pa, hq, hrest⟩
    · simp only [Except.ok.injEq, Prod.mk.injEq] at hout
      obtain ⟨rfl, rfl⟩ := hout
      exact fun M hM => Or.inl hM
    · rcases hrest with ⟨hres, hrec⟩ | ⟨mp, sd, hres, hrest⟩
      · exact ih inv.drop_item hrec
      · rcases hrest with ⟨hv, hrec⟩ | ⟨hv, hrest⟩
        · exact ih inv.drop_item hrec
        · rcases hrest with ⟨hlk, hout⟩ | ⟨content, hlk, hrest⟩
          · exact absurd hout (by simp)
          · rcases hrest with ⟨hp, hout⟩ | ⟨module, structs, enums, functions, hp, hrec⟩
            · exact absurd hout (by simp)
            · obtain ⟨hinv', hmpath, hfresh, hextfresh⟩ := inv.step_visit hq hres hv hp
              intro M hM
              rcases ih hinv' hrec M hM with hMr' | hpack
              · rcases List.mem_append.mp hMr' with hMold | hMnew
                · exact Or.inl hMold
                · have hMeq : M = module := List.mem_singleton.mp hMnew
                  subst hMeq
                  right
                  have hfun : M.declarations.map (fun s => (sd, s, M.path)) =
                      M.declarations.map (fun s => (sd, s, pa ++ [mn])) := by
                    rw [hmpath]
                  refine ⟨n, wl.dropLast, sd, v ++ [mp],
                    { r with modules := r.modules ++ [M],
                             structs := r.structs ++ structs,
                             enums := r.enums ++ enums,
                             functions := r.functions ++ functions },
                    ?_, ?_, ?_, ?_, ?_⟩
                  · rw [hfun]
                    exact hinv'
                  · rw [hfun]
                    exact hrec
                  · intro it hit hitp
                    have hmem := inv.wl_parent it ((List.dropLast_sublist wl).subset hit)
                    rw [hitp, hmpath] at hmem
                    exact hfresh hmem
                  · exact List.mem_map.mpr
                      ⟨M, List.mem_append_right _ (List.mem_singleton.mpr rfl), rfl⟩
                  · intro x hmem
                    have hmapp : (r.modules ++ [M]).map Module.path =
                        r.modules.map Module.path ++ [pa ++ [mn]] := by
                      rw [List.map_append, List.map_cons, List.map_nil, hmpath]
                    have hmem2 : (pa ++ [mn]) ++ [x] ∈
                        r.modules.map Module.path ++ [pa ++ [mn]] := by
                      rw [← hmapp]
                      rw [hmpath] at hmem
                      exact hmem
                    exact hextfresh x hmem2
              · exact Or.inr hpack

/-- From the state just after a module with path `q` and declarations `ds`
was appended — its submodule tuples on top of the worklist — the LIFO loop
puts every module created for a later declaration of `ds` at a strictly
earlier output index than every module created for an earlier one. -/
theorem sibling_reversal_from_state {fs : FS} {wl2 : List WorkItem} {sd : Path}
    {v2 : List Path} {r2 : AnalysisResult} {q : Path} {ds : List String}
    {n2 : Nat} {v' : List Path} {res : AnalysisResult}
    (hinv : TravInv fs (wl2 ++ ds.map (fun s => (sd, s, q))) v2 r2)
    (hrun : traverseFuel fs n2 (wl2 ++ ds.map (fun s => (sd, s, q))) v2 r2 =
      some (.ok (v', res)))
    (hwl2 : ∀ it ∈ wl2, it.2.2 ≠ q)
    (hq2 : q ∈ r2.modules.map Module.path)
    (hqx : ∀ x : String, (q ++ [x]) ∉ r2.modules.map Module.path)
    (hnd : ds.Nodup) {i j : Nat} (hij : i < j) (hjlen : j < ds.length)
    {ii jj : Nat} (hii : ii < res.modules.length) (hjj : jj < res.modules.length)
    (hpi : (res.modules.get ⟨ii, hii⟩).path = q ++ [ds.get ⟨i, Nat.lt_trans hij hjlen⟩])
    (hpj : (res.modules.get ⟨jj, hjj⟩).path = q ++ [ds.get ⟨j, hjlen⟩]) :
    jj < ii := by
  have hfin := traverseFuel_inv hinv hrun
  have hsplit : ds.map (fun s => ((sd, s, q) : WorkItem)) =
      (ds.take (i + 1)).map (fun s => (sd, s, q)) ++
      (ds.drop (i + 1)).map (fun s => (sd, s, q)) := by
    rw [← List.map_append, List.take_append_drop]
  rw [hsplit, ← List.append_assoc] at hrun
  obtain ⟨m1, mrest, v3, r3, hB, hcont⟩ := traverseFuel_append_inv hrun
  obtain ⟨m2, m3, v4, r4, hA, hR⟩ := traverseFuel_append_inv hcont
  obtain ⟨extraB, hg1, hprovB⟩ := traverseFuel_growth hB
  obtain ⟨extraA, hg2, hprovA⟩ := traverseFuel_growth hA
  obtain ⟨extraR, hg3, hprovR⟩ := traverseFuel_growth hR
  -- `q` occurs exactly once among the final paths
  have hq_res : q ∈ res.modules.map Module.path := by
    obtain ⟨m0, hm0, hm0eq⟩ := List.mem_map.mp hq2
    refine List.mem_map.mpr ⟨m0, ?_, hm0eq⟩
    rw [hg3, hg2, hg1]
    exact List.mem_append_left _ (List.mem_append_left _ (List.mem_append_left _ hm0))
  have hq_count : (res.modules.map Module.path).countP (fun p => decide (p = q)) = 1 :=
    countP_eq_one_of_nodup_mem hfin.nodup hq_res
  -- no module appended after this state carries the path `q` itself
  have htail_no_q : ∀ m', (m' ∈ extraB ∨ m' ∈ extraA ∨ m' ∈ extraR) →
      m'.path ≠ q := by
    intro m' hm' hpq
    have hdecomp : res.modules.map Module.path =
        r2.modules.map Module.path ++
        (extraB.map Module.path ++ (extraA.map Module.path ++ extraR.map Module.path)) := by
      rw [hg3, hg2, hg1]
      simp [List.map_append, List.append_assoc]
    have h1 : 0 < (r2.modules.map Module.path).countP (fun p => decide (p = q)) :=
      List.countP_pos_iff.mpr ⟨q, hq2, by simp⟩
    have h2 : 0 < (extraB.map Module.path ++
        (extraA.map Module.path ++ extraR.map Module.path)).countP
        (fun p => decide (p = q)) := by
      apply List.countP_pos_iff.mpr
      refine ⟨q, ?_, by simp⟩
      rcases hm' with hB' | hA' | hR'
      · exact List.mem_append_left _ (hpq ▸ List.mem_map_of_mem _ hB')
      · exact List.mem_append_right _
          (List.mem_append_left _ (hpq ▸ List.mem_map_of_mem _ hA'))
      · exact List.mem_append_right _
          (List.mem_append_right _ (hpq ▸ List.mem_map_of_mem _ hR'))
    rw [hdecomp, List.countP_append] at hq_count
    omega
  have hnd' : (ds.take (i + 1) ++ ds.drop (i + 1)).Nodup := by
    simpa using hnd
  have hdisj : ∀ x ∈ ds.take (i + 1), x ∉ ds.drop (i + 1) :=
    (List.nodup_append.mp hnd').2.2
  have hdi_take : ds.get ⟨i, Nat.lt_trans hij hjlen⟩ ∈ ds.take (i + 1) := by
    have hget : (ds.take (i + 1))[i]? = some (ds.get ⟨i, Nat.lt_trans hij hjlen⟩) := by
      rw [List.getElem?_take_of_lt (Nat.lt_succ_self i)]
      exact List.getElem?_eq_getElem _
    exact List.getElem?_mem hget
  have hdj_drop : ds.get ⟨j, hjlen⟩ ∈ ds.drop (i + 1) := by
    have hget : (ds.drop (i + 1))[j - (i + 1)]? = some (ds.get ⟨j, hjlen⟩) := by
      rw [List.getElem?_drop]
      rw [show i + 1 + (j - (i + 1)) = j by omega]
      exact List.getElem?_eq_getElem _
    exact List.getElem?_mem hget
  -- the i-th sibling's module cannot be created during the suffix phase
  have hBno : ∀ m ∈ extraB, m.path ≠ q ++ [ds.get ⟨i, Nat.lt_trans hij hjlen⟩] := by
    intro m hm hpath
    rcases hprovB m hm with ⟨it, hit, hsh⟩ | ⟨m', hm', hup⟩
    · obtain ⟨s, hs, heq⟩ := List.mem_map.mp hit
      subst heq
      have hsh2 : m.path = q ++ [s] := hsh
      have h2 : q ++ [ds.get ⟨i, Nat.lt_trans hij hjlen⟩] = q ++ [s] :=
        hpath.symm.trans hsh2
      rw [← List.concat_eq_append, ← List.concat_eq_append] at h2
      have hss := (List.concat_inj.mp h2).2
      rw [← hss] at hs
      exact hdisj _ hdi_take hs
    · rw [hpath, List.dropLast_concat] at hup
      exact htail_no_q m' (Or.inl hm') hup
  -- the j-th sibling's module cannot be created during the later phases
  have hAno : ∀ m ∈ extraA, m.path ≠ q ++ [ds.get ⟨j, hjlen⟩] := by
    intro m hm hpath
    rcases hprovA m hm with ⟨it, hit, hsh⟩ | ⟨m', hm', hup⟩
    · obtain ⟨s, hs, heq⟩ := List.mem_map.mp hit
      subst heq
      have hsh2 : m.path = q ++ [s] := hsh
      have h2 : q ++ [ds.get ⟨j, hjlen⟩] = q ++ [s] := hpath.symm.trans hsh2
      rw [← List.concat_eq_append, ← List.concat_eq_append] at h2
      have hss := (List.concat_inj.mp h2).2
      rw [← hss] at hs
      exact hdisj _ hs hdj_drop
    · rw [hpath, List.dropLast_concat] at hup
      exact htail_no_q m' (Or.inr (Or.inl hm')) hup
  have hRno : ∀ m ∈ extraR, m.path ≠ q ++ [ds.get ⟨j, hjlen⟩] := by
    intro m hm hpath
    rcases hprovR m hm with ⟨it, hit, hsh⟩ | ⟨m', hm', hup⟩
    · have h2 : q ++ [ds.get ⟨j, hjlen⟩] = it.2.2 ++ [it.2.1] := hpath.symm.trans hsh
      rw [← List.concat_eq_append, ← List.concat_eq_append] at h2
      exact hwl2 it hit (List.concat_inj.mp h2).1.symm
    · rw [hpath, List.dropLast_concat] at hup
      exact htail_no_q m' (Or.inr (Or.inr hm')) hup
  -- positions: jj lies before, ii after, the i-th sibling's phase begins
  have hres3 : res.modules = r3.modules ++ (extraA ++ extraR) := by
    rw [hg3, hg2, List.append_assoc]
  obtain ⟨mj, hmjget⟩ : ∃ mj, res.modules[jj]? = some mj :=
    ⟨_, List.getElem?_eq_getElem hjj⟩
  have hmjpath : mj.path = q ++ [ds.get ⟨j, hjlen⟩] := by
    have h3 : res.modules.get ⟨jj, hjj⟩ = mj :=
      Option.some.inj ((List.getElem?_eq_getElem hjj).symm.trans hmjget)
    exact h3 ▸ hpj
  obtain ⟨mi, hmiget⟩ : ∃ mi, res.modules[ii]? = some mi :=
    ⟨_, List.getElem?_eq_getElem hii⟩
  have hmipath : mi.path = q ++ [ds.get ⟨i, Nat.lt_trans hij hjlen⟩] := by
    have h3 : res.modules.get ⟨ii, hii⟩ = mi :=
      Option.some.inj ((List.getElem?_eq_getElem hii).symm.trans hmiget)
    exact h3 ▸ hpi
  rw [hres3] at hmjget hmiget
  have hjjlt : jj < r3.modules.length := by
    by_contra hge
    push_neg at hge
    rw [List.getElem?_append_right hge] at hmjget
    have hmem := List.getElem?_mem hmjget
    rcases List.mem_append.mp hmem with hmA | hmR
    · exact hAno _ hmA hmjpath
    · exact hRno _ hmR hmjpath
  have hiige : r3.modules.length ≤ ii := by
    by_contra hlt
    push_neg at hlt
    rw [List.getElem?_append_left hlt] at hmiget
    have hmem := List.getElem?_mem hmiget
    rw [hg1] at hmem
    rcases List.mem_append.mp hmem with hm2 | hmB
    · have hmm : mi.path ∈ r2.modules.map Module.path :=
        List.mem_map_of_mem Module.path hm2
      rw [hmipath] at hmm
      exact hqx _ hmm
    · exact hBno _ hmB hmipath
  omega

/-- C8 (amended): the worklist is processed last-in-first-out, so sibling
modules declared by one module — any module of the result, not just the
entry module — appear in the output in reverse source-declaration order:
when a module `M` of the result has pairwise distinct declarations and both
the `i`-th and the `j`-th of them (`i < j`) have a module directly below
`M` in the result, the `j`-th one's module occurs at a strictly earlier
index than the `i`-th one's.  The set of modules in the result is, however,
not invariant under the removal order (see the counterexample). -/
theorem c8_lifo_reverse_sibling_order {meta : CrateMeta} {fs : FS}
    {res : AnalysisResult} (h : analyze_crate meta fs = .ok res)
    {M : Module} (hM : M ∈ res.modules) (hnd : M.declarations.Nodup)
    {i j : Nat} (hij : i < j) (hjlen : j < M.declarations.length)
    {ii jj : Nat} (hii : ii < res.modules.length) (hjj : jj < res.modules.length)
    (hpi : (res.modules.get ⟨ii, hii⟩).path =
      M.path ++ [M.declarations.get ⟨i, Nat.lt_trans hij hjlen⟩])
    (hpj : (res.modules.get ⟨jj, hjj⟩).path =
      M.path ++ [M.declarations.get ⟨j, hjlen⟩]) :
    jj < ii := by
  rcases analyze_crate_cases h with ⟨_, rfl⟩ |
    ⟨content, module0, structs0, enums0, functions0, hlk, hp, htrav⟩
  · exfalso
    simp [AnalysisResult.new] at hM
  · obtain ⟨n, v', hfuel⟩ := traverse_ok_fuel htrav
    have hseed := seed_inv fs hp
    obtain ⟨hmod0, _, _, _⟩ := parse_some_spec hp
    have hp0 : module0.path = [meta.name] := by rw [hmod0]
    rcases traverseFuel_creation hseed hfuel M hM with hM0 |
      ⟨n2, wl2, sd, v2, r2, hinv2, hrun2, hwl2, hq2, hqx⟩
    · -- M is the root module: the seeded state already has the right shape
      have hMeq : M = module0 := List.mem_singleton.mp hM0
      subst hMeq
      have hfun : M.declarations.map (fun s => ((meta.srcPath.dropLast, s, M.path) : WorkItem)) =
          M.declarations.map (fun s => (meta.srcPath.dropLast, s, [meta.name])) := by
        rw [hp0]
      have hinvR : TravInv fs (([] : List WorkItem) ++
          M.declarations.map (fun s => (meta.srcPath.dropLast, s, M.path))) []
          { crate_ := { name := meta.name, version := meta.version },
            modules := [M], structs := structs0, enums := enums0,
            functions := functions0 } := by
        rw [List.nil_append, hfun]
        exact hseed
      have hrunR : traverseFuel fs n (([] : List WorkItem) ++
          M.declarations.map (fun s => (meta.srcPath.dropLast, s, M.path))) []
          { crate_ := { name := meta.name, version := meta.version },
            modules := [M], structs := structs0, enums := enums0,
            functions := functions0 } = some (.ok (v', res)) := by
        rw [List.nil_append, hfun]
        exact hfuel
      have hwl2R : ∀ it ∈ ([] : List WorkItem), it.2.2 ≠ M.path := by
        simp
      have hq2R : M.path ∈
          ({ crate_ := { name := meta.name, version := meta.version },
             modules := [M], structs := structs0, enums := enums0,
             functions := functions0 } : AnalysisResult).modules.map Module.path :=
        List.mem_map.mpr ⟨M, List.mem_singleton.mpr rfl, rfl⟩
      have hqxR : ∀ x : String, (M.path ++ [x]) ∉
          ({ crate_ := { name := meta.name, version := meta.version },
             modules := [M], structs := structs0, enums := enums0,
             functions := functions0 } : AnalysisResult).modules.map Module.path := by
        intro x hmem
        have heq := List.mem_singleton.mp hmem
        have hlen := congrArg List.length heq
        simp at hlen
      exact sibling_reversal_from_state hinvR hrunR hwl2R hq2R hqxR
        hnd hij hjlen hii hjj hpi hpj
    · exact sibling_reversal_from_state hinv2 hrun2 hwl2 hq2 hqx
        hnd hij hjlen hii hjj hpi hpj

/-- A crate with a nested module declaring two siblings: `src/lib.rs`
declares `m`; `src/m.rs` declares `x` then `y`; both are present as files
under `src/m/`. -/
def nestedCrateFS : FS :=
  [ (["src", "lib.rs"], mkContent none ["m"] [] []),
    (["src", "m.rs"], mkContent none ["x", "y"] [] []),
    (["src", "m", "x.rs"], mkContent none [] [] []),
    (["src", "m", "y.rs"], mkContent none [] [] []) ]

/-- Metadata of the nested-sibling crate. -/
def nestedCrateMeta : CrateMeta :=
  { name := "c", version := "0.1.0", srcPath := ["src", "lib.rs"] }

/-- Result of analyzing the nested-sibling crate: the non-root module `m`'s
siblings appear in reverse declaration order (`y` before `x`). -/
def nestedCrateExpected : AnalysisResult :=
  { crate_ := { name := "c", version := "0.1.0" },
    modules := [{ file := some ["src", "lib.rs"], path := ["c"],
                  docstring := none, declarations := ["m"] },
                { file := some ["src", "m.rs"], path := ["c", "m"],
                  docstring := none, declarations := ["x", "y"] },
                { file := some ["src", "m", "y.rs"], path := ["c", "m", "y"],
                  docstring := none, declarations := [] },
                { file := some ["src", "m", "x.rs"], path := ["c", "m", "x"],
                  docstring := none, declarations := [] }],
    structs := [], enums := [], functions := [] }

theorem analyze_nestedCrate :
    analyze_crate nestedCrateMeta nestedCrateFS = .ok nestedCrateExpected := by
  have h0 : analyze_crate nestedCrateMeta nestedCrateFS =
      traverse nestedCrateFS [(["src"], "m", ["c"])] []
        { crate_ := { name := "c", version := "0.1.0" },
          modules := [{ file := some ["src", "lib.rs"], path := ["c"],
                        docstring := none, declarations := ["m"] }],
          structs := [], enums := [], functions := [] } := rfl
  have hfuel : traverseFuel nestedCrateFS 10 [(["src"], "m", ["c"])] []
      { crate_ := { name := "c", version := "0.1.0" },
        modules := [{ file := some ["src", "lib.rs"], path := ["c"],
                      docstring := none, declarations := ["m"] }],
        structs := [], enums := [], functions := [] } =
      some (.ok ([["src", "m.rs"], ["src", "m", "y.rs"], ["src", "m", "x.rs"]],
        nestedCrateExpected)) := by rfl
  rw [h0, traverseFuel_agree hfuel]
  rfl

theorem c8_witness : (2 : Nat) < 3 :=
  @c8_lifo_reverse_sibling_order nestedCrateMeta nestedCrateFS nestedCrateExpected
    analyze_nestedCrate
    { file := some ["src", "m.rs"], path := ["c", "m"],
      docstring := none, declarations := ["x", "y"] }
    (by decide) (by decide) 0 1 (by decide) (by decide) 3 2
    (by decide) (by decide) (by decide) (by decide)

end SphinxRust
